import Mathlib

/-!
Verification of the streaming chat orchestrator of an AI chat client
(`src/services/ChatService.ts`).

The development shallowly embeds the string-processing core of the
orchestrator: the content reconciler, the thinking-tag extractor, the
tool-call parser and remover, the token metrics, and the continuation
controller's tool-call budget.  Strings are modelled as lists of
characters (`Chars`); the JavaScript regular expressions used by the
source are embedded as hand-written deterministic matchers that follow
the engine's leftmost-match / lazy-quantifier behaviour on the simple
patterns involved.  `Date.now()`/`Math.random()` based id generation is
modelled by an injective supply of fresh identifiers indexed by a
counter.
-/

/-- Strings are modelled as lists of characters. -/
abbrev Chars := List Char

/-- JavaScript `\s` (and `trim`) whitespace, restricted to the ASCII
whitespace characters that can occur in the modelled streams. -/
def isWsChar (c : Char) : Bool :=
  c = ' ' || c = '\t' || c = '\n' || c = '\r' || c = '\x0b' || c = '\x0c'

/-- JavaScript `String.prototype.trimStart`. -/
def trimStartL (s : Chars) : Chars := s.dropWhile isWsChar

/-- JavaScript `String.prototype.trimEnd` (also the source's
`replace(/\s+$/, '')`). -/
def trimEndL (s : Chars) : Chars := (s.reverse.dropWhile isWsChar).reverse

/-- JavaScript `String.prototype.trim`. -/
def trimL (s : Chars) : Chars := trimEndL (trimStartL s)

/-- JavaScript `s.substring(a, b)` for `a ≤ b` (clamped to the string). -/
def sliceL (s : Chars) (a b : Nat) : Chars := (s.take b).drop a

/-- Index of the first occurrence of `pat` in `s` (`String.indexOf`),
as an offset from the head of `s`. -/
def findIdx (pat : Chars) : Chars → Option Nat
  | [] => if pat = [] then some 0 else none
  | c :: rest =>
    if pat.isPrefixOf (c :: rest) then some 0
    else (findIdx pat rest).map (· + 1)

/-- First occurrence of `pat` in `s` at index ≥ `start`. -/
def findFrom (s pat : Chars) (start : Nat) : Option Nat :=
  (findIdx pat (s.drop start)).map (· + start)

/-- Case-insensitive prefix test (for the source's `/i` regex flags). -/
def isPrefixOfCI : Chars → Chars → Bool
  | [], _ => true
  | _ :: _, [] => false
  | a :: as, b :: bs => a.toLower = b.toLower && isPrefixOfCI as bs

/-- Index of the first case-insensitive occurrence of `pat` in `s`. -/
def findIdxCI (pat : Chars) : Chars → Option Nat
  | [] => if pat.isEmpty then some 0 else none
  | c :: rest =>
    if isPrefixOfCI pat (c :: rest) then some 0
    else (findIdxCI pat rest).map (· + 1)

/-- First case-insensitive occurrence of `pat` in `s` at index ≥ `start`. -/
def findFromCI (s pat : Chars) (start : Nat) : Option Nat :=
  (findIdxCI pat (s.drop start)).map (· + start)

/-!  ## Content reconciler

`sendMessage` accumulates streamed content; for every record carrying
visible content it merges the record's fragment into the accumulated
text (ChatService.ts, the `if (messageContent)` block inside the read
loop).  The fragment is only processed when non-empty (`if
(messageContent)`), mirrored here by the emptiness guard. -/

/-- One reconciliation step: merge fragment `F` into accumulated text
`A` (ChatService.ts lines 1090–1106). -/
def reconcileStep (A F : Chars) : Chars :=
  if F = [] then A
  else if A ≠ [] ∧ A.length ≤ F.length ∧ A.isPrefixOf F then
    -- cumulative: fragment repeats all accumulated content
    F
  else if A ≠ [] ∧ F.length < A.length then
    -- likely incremental: append unless the fragment's first ≤10
    -- characters overlap the end of the accumulated text
    if ¬ ((F.take 10).isSuffixOf A) then A ++ F
    else if F.length < A.length then A else F
  else if F.length < A.length then A else F

/-- Reconciliation of a whole sequence of fragments. -/
def reconcileAll (A : Chars) (frags : List Chars) : Chars :=
  frags.foldl reconcileStep A

/-- A fragment sequence is safely incremental when, at every step, the
fragment is non-empty and — once some text has accumulated — strictly
shorter than the accumulated text, with its first (up to 10) characters
not a suffix of the accumulated text. -/
def incrSafe : Chars → List Chars → Bool
  | _, [] => true
  | A, F :: rest =>
    (!F.isEmpty &&
      (A.isEmpty || (decide (F.length < A.length) && !((F.take 10).isSuffixOf A)))) &&
    incrSafe (A ++ F) rest

/-!  ## Token metrics (ChatService.ts lines 61–91 and the
tokens-per-second expression used at every finalization site) -/

/-- Estimates token count from text: 0 for empty text, otherwise
`Math.ceil(length / 4)` (ChatService.ts lines 61–66; on natural-number
lengths the float ceiling equals `(len + 3) / 4` in integer division). -/
def estimateTokens (text : String) : Nat :=
  if text.length = 0 then 0 else (text.length + 3) / 4

/-- Output-token estimation from thinking and content
(ChatService.ts lines 72–76). -/
def calculateOutputTokens (thinking content : String) : Nat × Nat :=
  (estimateTokens thinking, estimateTokens content)

/-- Input tokens over the message contents sent to the API: estimated
tokens of each truthy (non-empty) content plus 4 per message for
structure overhead (ChatService.ts lines 81–91). -/
def calculateInputTokens (contents : List String) : Nat :=
  contents.foldl
    (fun total c => (if c.length ≠ 0 then total + estimateTokens c else total) + 4) 0

/-- The tokens-per-second expression computed at every finalization
site: `(reasoning + output) > 0 && duration > 0 ? (reasoning + output) /
duration : 0` (e.g. ChatService.ts lines 1758–1760). -/
def tokensPerSecond (reasoning output : Nat) (duration : ℚ) : ℚ :=
  if 0 < reasoning + output ∧ 0 < duration
  then ((reasoning : ℚ) + (output : ℚ)) / duration
  else 0

/-!  ## Continuation controller: tool-call budget (C1)

`sendMessage` keeps a per-invocation counter `totalToolCallsExecuted`
capped at `MAX_TOOL_CALLS = 20` (ChatService.ts lines 617–628).  On a
continuation the counter is re-initialised from the tool results of the
first message in the history whose id equals the continued assistant
message's id (`messages.find(m => m.id === existingAssistantMessageId)`,
lines 623–628).  Each tool-execution site checks the counter before
every call; once it reaches the cap it pushes one synthetic
limit-reached error result and breaks out of the batch (lines
1669–1697); when the counter is already at the cap before a batch the
chain terminates with the limit message and `toolCalls` cleared (lines
1655–1665).  After a batch the controller appends a copy of the
assistant message (carrying only this batch's results) plus one tool
message per result and recurses (lines 1724–1748).

The model scripts the environment: each round's parsed tool calls are
given as a batch (a list of units), executions always succeed. -/

/-- A tool result: a successful execution or the synthetic
limit-reached error pushed when the cap is hit mid-batch. -/
inductive TR where
  | ok : TR
  | limitErr : TR
deriving DecidableEq, Repr

/-- Roles of the modelled conversation messages. -/
inductive MRole where
  | user : MRole
  | assistant : MRole
  | tool : MRole
deriving DecidableEq, Repr

/-- A conversation message as the continuation controller sees it: its
id, role and attached tool results.  The continued assistant message
always has id 0; other ids are positive. -/
structure MMsg where
  id : Nat
  role : MRole
  toolResults : List TR
deriving DecidableEq, Repr

/-- Executes a batch of requested tool calls against counter `c`
(ChatService.ts lines 1668–1697): before each call, if the counter has
reached 20 a single synthetic limit-reached result is pushed and the
loop breaks (remaining calls receive no result); otherwise the call is
executed and the counter incremented. -/
def execBatch (c : Nat) : List Unit → List TR × Nat
  | [] => ([], c)
  | _ :: rest =>
    if 20 ≤ c then ([TR.limitErr], c)
    else
      let (rs, c') := execBatch (c + 1) rest
      (TR.ok :: rs, c')

/-- The counter re-initialisation at the start of a (continuation)
invocation (ChatService.ts lines 623–628): the tool-result count of the
first message whose id matches the continued assistant id. -/
def initialCounter (messages : List MMsg) : Option Nat → Nat
  | none => 0
  | some i =>
    match messages.find? (fun m => m.id = i) with
    | some m => m.toolResults.length
    | none => 0

/-- One logical `sendMessage` chain, scripted by the list of tool-call
batches the model requests in successive rounds.  Returns the total
number of tool calls actually executed via the injected executor and
whether the chain terminated with the limit-reached message.  A round
with an empty batch produces a final answer and ends the chain. -/
def runChain : List (List Unit) → List MMsg → Option Nat → Nat → Nat × Bool
  | [], _, _, executed => (executed, false)
  | batch :: rounds, messages, existing, executed =>
    let c0 := initialCounter messages existing
    match batch with
    | [] => (executed, false)
    | _ :: _ =>
      if 20 ≤ c0 then
        -- limit pre-check: terminal limit message, toolCalls cleared
        (executed, true)
      else
        let (rs, c') := execBatch c0 batch
        let okCount := c' - c0
        -- continuation history (ChatService.ts lines 1731–1740):
        -- previous non-tool messages, the continuation user message,
        -- a copy of the assistant message carrying this batch's
        -- results, then one tool message per result
        let nextMessages :=
          messages.filter (fun m => m.role ≠ MRole.tool) ++
          [⟨1, MRole.user, []⟩, ⟨0, MRole.assistant, rs⟩] ++
          rs.map (fun r => ⟨2, MRole.tool, [r]⟩)
        let (restExec, limited) := runChain rounds nextMessages (some 0) (executed + okCount)
        (restExec, limited)

/-- Total executed tool calls over a chain started with a fresh user
request (round 1 has no `existingAssistantMessageId`). -/
def chainExecuted (batches : List (List Unit)) : Nat :=
  (runChain batches [⟨1, MRole.user, []⟩] none 0).1

/-- Whether the chain ended with the user-visible limit-reached
message. -/
def chainLimited (batches : List (List Unit)) : Bool :=
  (runChain batches [⟨1, MRole.user, []⟩] none 0).2

/-!  ## Thinking-tag extraction (ChatService.ts lines 162–202)

The source scans the accumulated text with regexes of the shape
`/<open>([\s\S]*?)<close>/gi` (for `<think>` with the alternation
`(?:<\/think>|<\/redacted_reasoning>)`).  For such patterns the engine
behaviour is: find the leftmost occurrence of the open tag from the
current scan position, then the earliest following occurrence of a
closing alternative (preferring the earlier alternative on a tie), emit
the match and continue scanning after it. -/

/-- One regex match of a tag pair: span `[start, stop)` in the text and
the captured group between the tags. -/
structure TagMatch where
  start : Nat
  stop : Nat
  group : Chars
deriving DecidableEq, Repr

/-- Earliest occurrence (case-insensitively) of any closing alternative
at index ≥ `i`, together with that alternative's length; on a positional
tie the alternative listed first wins, as in regex alternation. -/
def closeCandidate (s : Chars) (closes : List Chars) (i : Nat) : Option (Nat × Nat) :=
  closes.foldl
    (fun acc c =>
      match findFromCI s c i with
      | none => acc
      | some j =>
        match acc with
        | none => some (j, c.length)
        | some jl => if j < jl.1 then some (j, c.length) else some jl)
    none

/-- All matches of `/<open>([\s\S]*?)(close₁|close₂|…)/gi`, scanning
from index `i` with enough fuel. -/
def matchAllTagAux (s openT : Chars) (closes : List Chars) : Nat → Nat → List TagMatch
  | _, 0 => []
  | i, fuel + 1 =>
    match findFromCI s openT i with
    | none => []
    | some o =>
      match closeCandidate s closes (o + openT.length) with
      | none => []
      | some jl =>
        ⟨o, jl.1 + jl.2, sliceL s (o + openT.length) jl.1⟩ ::
          matchAllTagAux s openT closes (jl.1 + jl.2) fuel

/-- All matches of a tag-pair pattern over the whole text
(`text.matchAll(pattern)`). -/
def matchAllTag (s openT : Chars) (closes : List Chars) : List TagMatch :=
  matchAllTagAux s openT closes 0 (s.length + 1)

/-- Removes the given ascending, pairwise-disjoint spans from the text
(`text.replace(pattern, '')`): spans are deleted from the last to the
first so earlier indices stay valid. -/
def removeSpans (s : Chars) (spans : List (Nat × Nat)) : Chars :=
  spans.reverse.foldl (fun acc ab => acc.take ab.1 ++ acc.drop ab.2) s

/-- The thinking-tag patterns tried in order by the extraction loop
(ChatService.ts lines 164–170): open tag and closing alternatives. -/
def thinkingPatterns : List (Chars × List Chars) :=
  [ ("<think>".data, ["</think>".data]),
    ("<think>".data, ["</redacted_reasoning>".data]),
    ("<reasoning>".data, ["</reasoning>".data]),
    ("<thought>".data, ["</thought>".data]),
    ("<internal>".data, ["</internal>".data]) ]

/-- The pattern loop of `extractThinking` (ChatService.ts lines
189–199): the first pattern with matches wins; its matched spans are
stripped, trailing whitespace trimmed, and the captured groups joined
with blank lines as the thinking text. -/
def extractLoop (text : Chars) : List (Chars × List Chars) → Chars × Chars
  | [] => (text, [])
  | oc :: rest =>
    let ms := matchAllTag text oc.1 oc.2
    if ms.isEmpty then extractLoop text rest
    else
      (trimEndL (removeSpans text (ms.map fun m => (m.start, m.stop))),
       List.intercalate "\n\n".data (ms.map TagMatch.group))

/-- `extractThinking` (ChatService.ts lines 162–202): a dedicated
`<think>` branch (closing tolerantly on `</think>` or
`</redacted_reasoning>`) guarded by a case-sensitive `includes`, then
the pattern loop.  Returns `(cleanText, thinking)`. -/
def extractThinking (text : Chars) : Chars × Chars :=
  if (findFrom text "<think>".data 0).isSome then
    let ms := matchAllTag text "<think>".data
      ["</think>".data, "</redacted_reasoning>".data]
    if ms.isEmpty then extractLoop text thinkingPatterns
    else
      (trimEndL (removeSpans text (ms.map fun m => (m.start, m.stop))),
       List.intercalate "\n\n".data (ms.map TagMatch.group))
  else extractLoop text thinkingPatterns

/-!  ## Trailing-punctuation cleanup (ChatService.ts lines 147–155) -/

/-- Backward scan for `/<[^>]+>$/` after the final `>`: true when a `<`
is reached with at least one character scanned and no `>` in between. -/
def revTagScanAux : Chars → Nat → Bool
  | [], _ => false
  | c :: cs, n =>
    if c = '>' then false
    else if c = '<' && 0 < n then true
    else revTagScanAux cs (n + 1)

/-- Whether the text ends with an HTML-like tag (`/<[^>]+>$/`). -/
def endsWithHtmlTag (s : Chars) : Bool :=
  match s.reverse with
  | '>' :: rest => revTagScanAux rest 0
  | _ => false

/-- Characters stripped by the trailing-punctuation cleanup
(`/[?.!,\s]+$/`). -/
def isTrailPunct (c : Char) : Bool :=
  c = '?' || c = '.' || c = '!' || c = ',' || isWsChar c

/-- `cleanTrailingPunctuation` (ChatService.ts lines 147–155): keep the
trimmed text when it ends with an HTML tag, otherwise strip a trailing
run of punctuation and whitespace and trim. -/
def cleanTrailingPunctuation (text : Chars) : Chars :=
  if endsWithHtmlTag (trimL text) then trimL text
  else trimL ((text.reverse.dropWhile isTrailPunct).reverse)

/-!  ## JSON values (`JSON.parse` / `JSON.stringify`)

The tool-call validation logic parses argument strings with
`JSON.parse` and tests fields for JavaScript truthiness.  Numbers are
modelled as exact rationals (the source only ever tests them for
truthiness or re-serialises small integers, where the float model
agrees). -/

/-- A parsed JSON value. -/
inductive JVal where
  | jnull : JVal
  | jbool : Bool → JVal
  | jnum : ℚ → JVal
  | jstr : String → JVal
  | jarr : List JVal → JVal
  | jobj : List (String × JVal) → JVal
deriving BEq, Repr

/-- JSON whitespace (as accepted by `JSON.parse`). -/
def jsonWsChar (c : Char) : Bool :=
  c = ' ' || c = '\t' || c = '\n' || c = '\r'

/-- Decimal digit test. -/
def isDigitChar (c : Char) : Bool := '0' ≤ c && c ≤ '9'

/-- Hexadecimal digit value, if any (by code point: 0-9, a-f, A-F). -/
def hexDigitVal (c : Char) : Option Nat :=
  let n := c.toNat
  if 48 ≤ n ∧ n ≤ 57 then some (n - 48)
  else if 97 ≤ n ∧ n ≤ 102 then some (n - 87)
  else if 65 ≤ n ∧ n ≤ 70 then some (n - 55)
  else none

/-- Parses the body of a JSON string after the opening quote; returns
the content and the remainder after the closing quote. -/
def parseJStrAux : Nat → Chars → Option (Chars × Chars)
  | 0, _ => none
  | _, [] => none
  | fuel + 1, c :: rest =>
    if c = '"' then some ([], rest)
    else if c = '\\' then
      match rest with
      | [] => none
      | e :: rest2 =>
        if e = '"' ∨ e = '\\' ∨ e = '/' then
          (parseJStrAux fuel rest2).map (fun pr => (e :: pr.1, pr.2))
        else if e = 'b' then
          (parseJStrAux fuel rest2).map (fun pr => ('\x08' :: pr.1, pr.2))
        else if e = 'f' then
          (parseJStrAux fuel rest2).map (fun pr => ('\x0c' :: pr.1, pr.2))
        else if e = 'n' then
          (parseJStrAux fuel rest2).map (fun pr => ('\n' :: pr.1, pr.2))
        else if e = 'r' then
          (parseJStrAux fuel rest2).map (fun pr => ('\r' :: pr.1, pr.2))
        else if e = 't' then
          (parseJStrAux fuel rest2).map (fun pr => ('\t' :: pr.1, pr.2))
        else if e = 'u' then
          match rest2 with
          | h1 :: h2 :: h3 :: h4 :: rest3 =>
            match hexDigitVal h1, hexDigitVal h2, hexDigitVal h3, hexDigitVal h4 with
            | some a, some b, some c3, some d =>
              let code := ((a * 16 + b) * 16 + c3) * 16 + d
              let ch := if h : code.isValidChar then Char.ofNatAux code h else '�'
              (parseJStrAux fuel rest3).map (fun pr => (ch :: pr.1, pr.2))
            | _, _, _, _ => none
          | _ => none
        else none
    else if c.toNat < 0x20 then none
    else (parseJStrAux fuel rest).map (fun pr => (c :: pr.1, pr.2))

/-- Parses a JSON number (integer part, optional fraction and
exponent) into an exact rational. -/
def parseJNum (s : Chars) : Option (ℚ × Chars) :=
  let (sign, s1) : ℚ × Chars :=
    match s with
    | '-' :: r => (-1, r)
    | _ => (1, s)
  let intDigits := s1.takeWhile isDigitChar
  let s2 := s1.drop intDigits.length
  if intDigits.isEmpty then none
  else if intDigits.length > 1 ∧ intDigits.head? = some '0' then none
  else
    let intVal : Nat := intDigits.foldl (fun a c => a * 10 + (c.toNat - '0'.toNat)) 0
    let (fracVal, fracLen, s3) : Nat × Nat × Chars :=
      match s2 with
      | '.' :: r =>
        let fd := r.takeWhile isDigitChar
        (fd.foldl (fun a c => a * 10 + (c.toNat - '0'.toNat)) 0, fd.length, r.drop fd.length)
      | _ => (0, 0, s2)
    if s3.length + 1 = s2.length ∧ fracLen = 0 ∧ s2.head? = some '.' then none
    else
      let (expOk, expSign, expVal, s4) : Bool × Int × Nat × Chars :=
        match s3 with
        | 'e' :: r | 'E' :: r =>
          let (es, r1) : Int × Chars :=
            match r with
            | '+' :: r2 => (1, r2)
            | '-' :: r2 => (-1, r2)
            | _ => (1, r)
          let ed := r1.takeWhile isDigitChar
          (¬ ed.isEmpty, es, ed.foldl (fun a c => a * 10 + (c.toNat - '0'.toNat)) 0, r1.drop ed.length)
        | _ => (true, 1, 0, s3)
      if ¬ expOk then none
      else
        let mantissa : ℚ := (intVal : ℚ) + (fracVal : ℚ) / (10 : ℚ) ^ fracLen
        some (sign * mantissa * (10 : ℚ) ^ (expSign * (expVal : Int)), s4)

mutual

/-- Parses one JSON value (leading whitespace allowed); returns the
value and the unconsumed remainder. -/
def parseJVal : Nat → Chars → Option (JVal × Chars)
  | 0, _ => none
  | fuel + 1, s =>
    let s := s.dropWhile jsonWsChar
    match s with
    | [] => none
    | c :: rest =>
      if c = '"' then
        (parseJStrAux (rest.length + 1) rest).map (fun pr => (JVal.jstr (String.mk pr.1), pr.2))
      else if c = '\x7b' then
        parseJMembers fuel (rest.dropWhile jsonWsChar) true
      else if c = '[' then
        parseJElems fuel (rest.dropWhile jsonWsChar) true
      else if "true".data.isPrefixOf s then some (JVal.jbool true, s.drop 4)
      else if "false".data.isPrefixOf s then some (JVal.jbool false, s.drop 5)
      else if "null".data.isPrefixOf s then some (JVal.jnull, s.drop 4)
      else (parseJNum s).map (fun pr => (JVal.jnum pr.1, pr.2))

/-- Parses the members of a JSON object after the opening brace (and
any whitespace); `first` marks that no member has been read yet, so a
closing brace yields the empty object. -/
def parseJMembers : Nat → Chars → Bool → Option (JVal × Chars)
  | 0, _, _ => none
  | fuel + 1, s, first =>
    match s with
    | '\x7d' :: rest =>
      if first then some (JVal.jobj [], rest) else none
    | _ =>
      match parseJMemberList fuel s with
      | some (kvs, rest) => some (JVal.jobj kvs, rest)
      | none => none

/-- Parses a non-empty comma-separated member list and the closing
brace. -/
def parseJMemberList : Nat → Chars → Option (List (String × JVal) × Chars)
  | 0, _ => none
  | fuel + 1, s =>
    match s with
    | '"' :: rest =>
      match parseJStrAux (rest.length + 1) rest with
      | none => none
      | some (key, r1) =>
        match (r1.dropWhile jsonWsChar) with
        | ':' :: r2 =>
          match parseJVal fuel r2 with
          | none => none
          | some (v, r3) =>
            match r3.dropWhile jsonWsChar with
            | ',' :: r4 =>
              match parseJMemberList fuel (r4.dropWhile jsonWsChar) with
              | some (kvs, r5) => some ((String.mk key, v) :: kvs, r5)
              | none => none
            | '\x7d' :: r4 => some ([(String.mk key, v)], r4)
            | _ => none
        | _ => none
    | _ => none

/-- Parses the elements of a JSON array after the opening bracket. -/
def parseJElems : Nat → Chars → Bool → Option (JVal × Chars)
  | 0, _, _ => none
  | fuel + 1, s, first =>
    match s with
    | ']' :: rest =>
      if first then some (JVal.jarr [], rest) else none
    | _ =>
      match parseJElemList fuel s with
      | some (vs, rest) => some (JVal.jarr vs, rest)
      | none => none

/-- Parses a non-empty comma-separated element list and the closing
bracket. -/
def parseJElemList : Nat → Chars → Option (List JVal × Chars)
  | 0, _ => none
  | fuel + 1, s =>
    match parseJVal fuel s with
    | none => none
    | some (v, r1) =>
      match r1.dropWhile jsonWsChar with
      | ',' :: r2 =>
        match parseJElemList fuel r2 with
        | some (vs, r3) => some (v :: vs, r3)
        | none => none
      | ']' :: r2 => some ([v], r2)
      | _ => none

end

/-- `JSON.parse`: parse one value and require only whitespace after
it. -/
def jsonParse (s : Chars) : Option JVal :=
  match parseJVal (s.length + 1) s with
  | some (v, rest) => if (rest.dropWhile jsonWsChar).isEmpty then some v else none
  | none => none

/-- Escapes one character for `JSON.stringify` string output. -/
def escapeJChar (c : Char) : List Char :=
  if c = '"' then ['\\', '"']
  else if c = '\\' then ['\\', '\\']
  else if c = '\n' then ['\\', 'n']
  else if c = '\r' then ['\\', 'r']
  else if c = '\t' then ['\\', 't']
  else if c = '\x08' then ['\\', 'b']
  else if c = '\x0c' then ['\\', 'f']
  else if c.toNat < 0x20 then
    let hx := fun n => "0123456789abcdef".data.getD n '0'
    ['\\', 'u', '0', '0', hx (c.toNat / 16), hx (c.toNat % 16)]
  else [c]

/-- `JSON.stringify` of a string value. -/
def quoteJStr (s : String) : Chars :=
  '"' :: (s.data.foldr (fun c acc => escapeJChar c ++ acc) ['"'])

/-- `JSON.stringify` of a number.  Integers (the only numeric payloads
the orchestrator ever re-serialises) print exactly; non-integral
rationals are printed as `num/den`, an approximation of the float
formatting the model never relies on. -/
def stringifyNum (q : ℚ) : Chars :=
  if q.den = 1 then (toString q.num).data
  else (toString q.num ++ "/" ++ toString q.den).data

mutual

/-- `JSON.stringify` (compact form, insertion-ordered object keys). -/
def stringifyV : JVal → Chars
  | JVal.jnull => "null".data
  | JVal.jbool true => "true".data
  | JVal.jbool false => "false".data
  | JVal.jnum q => stringifyNum q
  | JVal.jstr s => quoteJStr s
  | JVal.jarr es => '[' :: (stringifyElems es ++ [']'])
  | JVal.jobj fs => '\x7b' :: (stringifyFields fs ++ ['\x7d'])

/-- Serialises array elements, comma-separated. -/
def stringifyElems : List JVal → Chars
  | [] => []
  | [e] => stringifyV e
  | e :: es => stringifyV e ++ ',' :: stringifyElems es

/-- Serialises object members, comma-separated. -/
def stringifyFields : List (String × JVal) → Chars
  | [] => []
  | [kv] => quoteJStr kv.1 ++ ':' :: stringifyV kv.2
  | kv :: kvs => quoteJStr kv.1 ++ ':' :: stringifyV kv.2 ++ ',' :: stringifyFields kvs

end

/-- Object member lookup with JavaScript semantics: the last binding of
a duplicated key wins. -/
def objLookup (fields : List (String × JVal)) (k : String) : Option JVal :=
  (fields.reverse.find? (fun kv => kv.1 = k)).map (fun kv => kv.2)

/-- JavaScript property access `v.k` (undefined on non-objects). -/
def fieldOf (v : JVal) (k : String) : Option JVal :=
  match v with
  | JVal.jobj fs => objLookup fs k
  | _ => none

/-- JavaScript truthiness of a JSON value. -/
def jsTruthy : JVal → Bool
  | JVal.jnull => false
  | JVal.jbool b => b
  | JVal.jnum q => decide (q ≠ 0)
  | JVal.jstr s => decide (s ≠ "")
  | JVal.jarr _ => true
  | JVal.jobj _ => true

/-- Truthiness of the field `v.k` (`undefined` is falsy). -/
def fieldTruthy (v : JVal) (k : String) : Bool :=
  match fieldOf v k with
  | some w => jsTruthy w
  | none => false

/-- `v.k !== undefined`. -/
def hasField (v : JVal) (k : String) : Bool := (fieldOf v k).isSome

/-- `Array.isArray(v.k)`. -/
def fieldIsArr (v : JVal) (k : String) : Bool :=
  match fieldOf v k with
  | some (JVal.jarr _) => true
  | _ => false

/-- JavaScript `typeof v === 'object'` (true for objects, arrays and
null). -/
def isObjType : JVal → Bool
  | JVal.jobj _ => true
  | JVal.jarr _ => true
  | JVal.jnull => true
  | _ => false

/-!  ## Tool-call pattern matching (ChatService.ts lines 316–449 and
456–591)

The inline JSON tool-call regex is
`/\{"name"\s*:\s*"(web_search|…|tool_\w+)"\s*,\s*"arguments"\s*:\s*(\{[^{}]*(?:\{[^{}]*\}[^{}]*)*\})\}/g`
and the native form is
`/<tool_call>\s*(\{[\s\S]*?\})\s*<\/tool_call>/gi`.  Both are embedded
as deterministic matchers: the argument-object sub-pattern accepts one
level of brace nesting and is deterministic because `[^{}]*` can never
consume a brace, and the lazy body of the native form ends at the first
`}` followed by optional whitespace and the closing tag. -/

/-- Auxiliary length bound used by the termination arguments below. -/
theorem lenDropWhileLe (p : Char → Bool) (l : Chars) :
    (l.dropWhile p).length ≤ l.length := by
  induction l with
  | nil => simp [List.dropWhile]
  | cons c cs ih =>
    by_cases h : p c
    · simp only [List.dropWhile, h]
      exact Nat.le_succ_of_le ih
    · simp [List.dropWhile, h]

/-- Consume an exact literal. -/
def expectS (pat t : Chars) : Option Chars :=
  if pat.isPrefixOf t then some (t.drop pat.length) else none

/-- Consume an exact literal, case-insensitively. -/
def expectCI (pat t : Chars) : Option Chars :=
  if isPrefixOfCI pat t then some (t.drop pat.length) else none

/-- JavaScript regex `\w`. -/
def isWordChar (c : Char) : Bool :=
  ('a' ≤ c && c ≤ 'z') || ('A' ≤ c && c ≤ 'Z') || isDigitChar c || c = '_'

/-- The literal tool names of the regex alternation, in order. -/
def toolNameLits : List String :=
  ["web_search", "fetch_url", "create_table", "read_file", "write_file",
   "list_files", "delete_file", "file_exists", "search_replace"]

/-- Matches the tool-name alternation
`(web_search|…|search_replace|tool_\w+)`: the literal names are
pairwise prefix-free, and `tool_\w+` takes a maximal word run. -/
def matchToolName (t : Chars) : Option (String × Chars) :=
  match toolNameLits.find? (fun n => n.data.isPrefixOf t) with
  | some n => some (n, t.drop n.length)
  | none =>
    match expectS "tool_".data t with
    | some rest =>
      let w := rest.takeWhile isWordChar
      if w.isEmpty then none
      else some ("tool_" ++ String.mk w, rest.drop w.length)
    | none => none

/-- Characters allowed by `[^{}]`. -/
def nonBraceChar (c : Char) : Bool := c ≠ '\x7b' && c ≠ '\x7d'

/-- The iterated part `(\{[^{}]*\}[^{}]*)*\}` of the argument-object
pattern, given the characters consumed so far (after the opening brace
and first `[^{}]*` run). -/
def argsLoopAux : Nat → Chars → Chars → Option (Chars × Chars)
  | 0, _, _ => none
  | fuel + 1, acc, t =>
    match t with
    | [] => none
    | c :: r =>
      if c = '\x7d' then some (acc ++ ['\x7d'], r)
      else if c = '\x7b' then
        let a := r.takeWhile nonBraceChar
        match r.drop a.length with
        | [] => none
        | c2 :: r2 =>
          if c2 = '\x7d' then
            let b := r2.takeWhile nonBraceChar
            argsLoopAux fuel (acc ++ '\x7b' :: (a ++ '\x7d' :: b)) (r2.drop b.length)
          else none
      else none

/-- Matches the argument-object sub-pattern
`\{[^{}]*(?:\{[^{}]*\}[^{}]*)*\}`; returns the matched span (braces
included) and the remainder. -/
def matchArgsGroup (t : Chars) : Option (Chars × Chars) :=
  match t with
  | [] => none
  | c :: r =>
    if c = '\x7b' then
      let a := r.takeWhile nonBraceChar
      argsLoopAux (t.length + 1) ('\x7b' :: a) (r.drop a.length)
    else none

/-- Matches the full inline JSON tool-call pattern at the head of `t`;
returns the tool name, the argument span and the remainder. -/
def matchJsonCallSuffix (t : Chars) : Option (String × Chars × Chars) :=
  match expectS "\x7b\"name\"".data t with
  | none => none
  | some t1 =>
    match expectS ":".data (t1.dropWhile isWsChar) with
    | none => none
    | some t3 =>
      match expectS "\"".data (t3.dropWhile isWsChar) with
      | none => none
      | some t5 =>
        match matchToolName t5 with
        | none => none
        | some (name, t6) =>
          match expectS "\"".data t6 with
          | none => none
          | some t7 =>
            match expectS ",".data (t7.dropWhile isWsChar) with
            | none => none
            | some t9 =>
              match expectS "\"arguments\"".data (t9.dropWhile isWsChar) with
              | none => none
              | some t11 =>
                match expectS ":".data (t11.dropWhile isWsChar) with
                | none => none
                | some t13 =>
                  match matchArgsGroup (t13.dropWhile isWsChar) with
                  | none => none
                  | some (args, t15) =>
                    match expectS "\x7d".data t15 with
                    | none => none
                    | some t16 => some (name, args, t16)

/-- One inline JSON tool-call match: span and captured groups. -/
structure JMatch where
  start : Nat
  stop : Nat
  name : String
  args : Chars
deriving DecidableEq, Repr

/-- One native `<tool_call>` match: span and captured JSON body. -/
structure TMatch where
  start : Nat
  stop : Nat
  inner : Chars
deriving DecidableEq, Repr

/-- Scans the text left to right for inline JSON tool calls, resuming
after each match (`RegExp.exec` with the `g` flag). -/
def scanJsonCalls (s : Chars) : Nat → Nat → List JMatch
  | _, 0 => []
  | i, fuel + 1 =>
    if s.length ≤ i then []
    else
      match matchJsonCallSuffix (s.drop i) with
      | some nar =>
        let stop := s.length - nar.2.2.length
        ⟨i, stop, nar.1, nar.2.1⟩ :: scanJsonCalls s stop fuel
      | none => scanJsonCalls s (i + 1) fuel

/-- All inline JSON tool-call matches of the text. -/
def jsonCallMatches (s : Chars) : List JMatch :=
  scanJsonCalls s 0 (s.length + 1)

/-- The lazy body of `<tool_call>\s*(\{[\s\S]*?\})\s*<\/tool_call>`:
after the opening brace, the group ends at the first `}` that is
followed by optional whitespace and the closing tag. -/
def tagLazyScan : Nat → Chars → Chars → Option (Chars × Chars)
  | 0, _, _ => none
  | fuel + 1, acc, t =>
    match t with
    | [] => none
    | c :: r =>
      if c = '\x7d' then
        let r' := r.dropWhile isWsChar
        if isPrefixOfCI "</tool_call>".data r' then
          some (acc ++ ['\x7d'], r'.drop 12)
        else tagLazyScan fuel (acc ++ [c]) r
      else tagLazyScan fuel (acc ++ [c]) r

/-- Matches the full native tool-call pattern at the head of `t`;
returns the captured JSON body (braces included) and the remainder. -/
def matchTagCallSuffix (t : Chars) : Option (Chars × Chars) :=
  match expectCI "<tool_call>".data t with
  | none => none
  | some t1 =>
    match t1.dropWhile isWsChar with
    | [] => none
    | c :: r => if c = '\x7b' then tagLazyScan (r.length + 1) ['\x7b'] r else none

/-- Scans the text left to right for native tool-call tags. -/
def scanTagCalls (s : Chars) : Nat → Nat → List TMatch
  | _, 0 => []
  | i, fuel + 1 =>
    if s.length ≤ i then []
    else
      match matchTagCallSuffix (s.drop i) with
      | some ir =>
        let stop := s.length - ir.2.length
        ⟨i, stop, ir.1⟩ :: scanTagCalls s stop fuel
      | none => scanTagCalls s (i + 1) fuel

/-- All native tool-call matches of the text. -/
def tagCallMatches (s : Chars) : List TMatch :=
  scanTagCalls s 0 (s.length + 1)

/-!  ## Tool-call validation and collection (`parseToolCalls`,
ChatService.ts lines 316–449) -/

/-- Per-tool validation of a matched inline JSON call in
`parseToolCalls` (lines 330–416): `JSON.parse` the arguments, then the
if/else-if chain of per-tool checks.  `create_table` has no branch
there and falls through every condition, so it is never collected. -/
def validArgsParse (name : String) (args : Chars) : Bool :=
  match jsonParse args with
  | none => false
  | some j =>
    if name = "web_search" then isObjType j && fieldTruthy j "query"
    else if name = "fetch_url" then isObjType j && fieldTruthy j "url"
    else if name = "read_file" then isObjType j && fieldTruthy j "path"
    else if name = "write_file" then isObjType j && fieldTruthy j "path" && hasField j "content"
    else if name = "list_files" then isObjType j
    else if name = "delete_file" then isObjType j && fieldTruthy j "path"
    else if name = "file_exists" then isObjType j && fieldTruthy j "path"
    else if name = "search_replace" then
      isObjType j && fieldTruthy j "path" && fieldIsArr j "replacements"
    else if name = "create_table" then false
    else isObjType j

/-- Per-tool validation of a matched inline JSON call in
`removeToolCalls` (lines 470–501); unlike `parseToolCalls` it also
accepts `create_table` with array `columns` and `rows`. -/
def validArgsRemove (name : String) (args : Chars) : Bool :=
  match jsonParse args with
  | none => false
  | some j =>
    if name = "web_search" then isObjType j && fieldTruthy j "query"
    else if name = "fetch_url" then isObjType j && fieldTruthy j "url"
    else if name = "create_table" then
      isObjType j && fieldIsArr j "columns" && fieldIsArr j "rows"
    else if name = "read_file" then isObjType j && fieldTruthy j "path"
    else if name = "write_file" then isObjType j && fieldTruthy j "path" && hasField j "content"
    else if name = "list_files" then isObjType j
    else if name = "delete_file" then isObjType j && fieldTruthy j "path"
    else if name = "file_exists" then isObjType j && fieldTruthy j "path"
    else if name = "search_replace" then
      isObjType j && fieldTruthy j "path" && fieldIsArr j "replacements"
    else isObjType j

/-- Validation of a native tool-call body (lines 431–443 and 507–509):
`JSON.parse` it and require truthy `name` and `arguments` fields. -/
def validTagInner (inner : Chars) : Option (JVal × JVal) :=
  match jsonParse inner with
  | none => none
  | some j =>
    match fieldOf j "name", fieldOf j "arguments" with
    | some nv, some av => if jsTruthy nv && jsTruthy av then some (nv, av) else none
    | _, _ => none

/-- A JSON value used where the source expects a string (string values
pass through unchanged; the orchestrator only ever receives strings
here). -/
def jvalAsString : JVal → String
  | JVal.jstr s => s
  | v => String.mk (stringifyV v)

/-- Normalisation of the native form's `arguments` (lines 438–440):
keep strings, `JSON.stringify` anything else. -/
def normalizeTagArgs : JVal → String
  | JVal.jstr s => s
  | v => String.mk (stringifyV v)

/-- The `function` payload of a collected tool call. -/
structure ToolFn where
  name : String
  arguments : String
deriving DecidableEq, Repr

/-- A collected tool call.  The source generates
`id = tool_call_${Date.now()}_${Math.random()}`; the model draws ids
from an injective supply indexed by a per-collection counter. -/
structure ToolCall where
  id : String
  tcType : String
  fn : ToolFn
deriving DecidableEq, Repr

/-- The valid inline JSON matches collected by `parseToolCalls`. -/
def validJsonMatches (s : Chars) : List JMatch :=
  (jsonCallMatches s).filter (fun m => validArgsParse m.name m.args)

/-- The valid native matches collected by `parseToolCalls`, as
(name, normalised arguments) pairs. -/
def validTagPayloads (s : Chars) : List (String × String) :=
  (tagCallMatches s).filterMap
    (fun m => (validTagInner m.inner).map
      (fun nv_av => (jvalAsString nv_av.1, normalizeTagArgs nv_av.2)))

/-- `parseToolCalls` (ChatService.ts lines 316–449): collect all valid
inline JSON matches in text order, then all valid native matches in
text order, each as a `function` tool call with a fresh id. -/
def parseToolCalls (s : Chars) (fresh : Nat → String) : List ToolCall :=
  let jms := validJsonMatches s
  let jcs := jms.enum.map
    (fun km => ⟨fresh km.1, "function", ⟨km.2.name, String.mk km.2.args⟩⟩)
  let tps := validTagPayloads s
  let tcs := tps.enum.map
    (fun kp => (⟨fresh (jms.length + kp.1), "function", ⟨kp.2.1, kp.2.2⟩⟩ : ToolCall))
  jcs ++ tcs

/-!  ## Tool-call removal (`removeToolCalls`, ChatService.ts lines
456–591) -/

/-- The spans marked for removal: inline JSON matches validated by the
removal branch plus valid native matches, in that collection order
(lines 465–515). -/
def removalMatches (s : Chars) : List (Nat × Nat) :=
  ((jsonCallMatches s).filter (fun m => validArgsRemove m.name m.args)).map
    (fun m => (m.start, m.stop)) ++
  ((tagCallMatches s).filter (fun m => (validTagInner m.inner).isSome)).map
    (fun m => (m.start, m.stop))

/-- Stable insertion for sorting spans by descending start. -/
def insertDesc (x : Nat × Nat) : List (Nat × Nat) → List (Nat × Nat)
  | [] => [x]
  | y :: ys => if y.1 < x.1 then x :: y :: ys else y :: insertDesc x ys

/-- `matches.sort((a, b) => b.start - a.start)` (line 524). -/
def sortByStartDesc (l : List (Nat × Nat)) : List (Nat × Nat) :=
  l.foldr insertDesc []

/-- One step of the precise removal loop (lines 528–551): delete the
span, then — when non-blank content is adjacent on both sides — insert
a single joining space if the characters now touching are both
non-space. -/
def removePass (cleaned : Chars) (m : Nat × Nat) : Chars :=
  let st := m.1
  let en := m.2
  let beforeMatch := sliceL cleaned (st - 200) st
  let afterMatch := sliceL cleaned en (min cleaned.length (en + 200))
  let cleaned2 := cleaned.take st ++ cleaned.drop en
  let beforeT := trimEndL beforeMatch
  let afterT := trimStartL afterMatch
  if beforeT ≠ [] ∧ afterT ≠ [] ∧ beforeT.getLast? ≠ some '\n' ∧ afterT.head? ≠ some '\n' then
    let beforeEnd := sliceL cleaned2 (st - 1) st
    let afterStart := sliceL cleaned2 st (min cleaned2.length (st + 1))
    if trimL beforeEnd ≠ [] ∧ trimL afterStart ≠ [] ∧
        beforeEnd.getLast? ≠ some ' ' ∧ afterStart.head? ≠ some ' ' then
      cleaned2.take st ++ ' ' :: cleaned2.drop st
    else cleaned2
  else cleaned2

/-- Scanner state for the `\s{2,}` collapse: outside any whitespace
run, holding one pending whitespace character, or inside a run whose
single replacement space was already emitted. -/
inductive CWState where
  | norm : CWState
  | pend : Char → CWState
  | run : CWState
deriving DecidableEq, Repr

/-- One-pass scanner for `cleaned.replace(/\s{2,}/g, ' ')` (line 554):
every maximal run of two or more whitespace characters becomes a single
space; a lone whitespace character is kept as itself. -/
def cwGo : CWState → Chars → Chars
  | CWState.norm, [] => []
  | CWState.pend c, [] => [c]
  | CWState.run, [] => []
  | CWState.norm, x :: xs =>
    if isWsChar x then cwGo (CWState.pend x) xs else x :: cwGo CWState.norm xs
  | CWState.pend c, x :: xs =>
    if isWsChar x then ' ' :: cwGo CWState.run xs else c :: x :: cwGo CWState.norm xs
  | CWState.run, x :: xs =>
    if isWsChar x then cwGo CWState.run xs else x :: cwGo CWState.norm xs

/-- `cleaned.replace(/\s{2,}/g, ' ')` (line 554). -/
def collapseWs (s : Chars) : Chars := cwGo CWState.norm s

/-- One-pass scanner for `cleaned.replace(/ +\n/g, '\n')` (line 556),
carrying the number of pending spaces: a run of spaces immediately
before a newline is dropped, any other run is emitted unchanged. -/
def spGo : Nat → Chars → Chars
  | n, [] => List.replicate n ' '
  | n, x :: xs =>
    if x = ' ' then spGo (n + 1) xs
    else if x = '\n' then '\n' :: spGo 0 xs
    else List.replicate n ' ' ++ x :: spGo 0 xs

/-- `cleaned.replace(/ +\n/g, '\n')` (line 556). -/
def stripSpacesBeforeNl (s : Chars) : Chars := spGo 0 s

/-- Emits a pending newline run for the `\n{3,}` collapse: runs of
three or more become exactly two. -/
def flushNl (n : Nat) : Chars :=
  if 3 ≤ n then ['\n', '\n'] else List.replicate n '\n'

/-- One-pass scanner for `cleaned.replace(/\n{3,}/g, '\n\n')` (line
558), carrying the number of pending newlines. -/
def nlGo : Nat → Chars → Chars
  | n, [] => flushNl n
  | n, x :: xs =>
    if x = '\n' then nlGo (n + 1) xs
    else flushNl n ++ x :: nlGo 0 xs

/-- `cleaned.replace(/\n{3,}/g, '\n\n')` (line 558). -/
def collapseNl3 (s : Chars) : Chars := nlGo 0 s

/-- The whitespace-cleanup pipeline applied after the precise removal
pass (lines 553–561). -/
def cleanupWs (s : Chars) : Chars :=
  trimEndL (collapseNl3 (stripSpacesBeforeNl (collapseWs s)))

/-- One step of the conservative fallback removal (lines 574–581):
delete a span only when it is bounded by whitespace or the buffer
edges. -/
def conservativePass (cleaned : Chars) (m : Nat × Nat) : Chars :=
  let st := m.1
  let en := m.2
  let before := sliceL cleaned (st - 1) st
  let after := sliceL cleaned en (min cleaned.length (en + 1))
  if (trimL before = [] ∨ st = 0) ∧ (trimL after = [] ∨ en = cleaned.length) then
    cleaned.take st ++ cleaned.drop en
  else cleaned

/-- `removeToolCalls` (ChatService.ts lines 456–591): find the spans,
remove them from last to first with spacing fixes, run the whitespace
cleanup, and — if the first 50 visible characters changed — redo the
removal conservatively from the original text; finally restore
preserved leading whitespace. -/
def removeToolCalls (content : Chars) : Chars :=
  if content = [] then content
  else
    let originalStart := trimStartL content
    let leading := content.length - originalStart.length
    let ms := removalMatches content
    if ms = [] then content
    else
      let sorted := sortByStartDesc ms
      let cleaned0 := sorted.foldl removePass content
      let cleaned1 := cleanupWs cleaned0
      let cleanedStart := trimStartL cleaned1
      let cleaned2 :=
        if cleanedStart ≠ [] ∧ originalStart ≠ [] then
          let originalPrefix := originalStart.take 50
          let cleanedPrefix := cleanedStart.take 50
          if ¬ ((originalPrefix.take (min cleanedPrefix.length originalPrefix.length)).isPrefixOf
                cleanedPrefix) then
            sorted.foldl conservativePass content
          else cleaned1
        else cleaned1
      if 0 < leading ∧ trimStartL cleaned2 = originalStart then
        List.replicate leading ' ' ++ trimStartL cleaned2
      else cleaned2

/-!  ## Cancellation finalization (ChatService.ts lines 1006–1046 and
1535–1575)

Both cancellation detection sites (the abort-signal check before each
read and the `AbortError` read-error path) run the same finalization as
normal completion on the accumulated text — thinking extraction,
tool-call removal, trailing-punctuation cleanup, token metrics — then
append the cancellation notice, clear the streaming flags and emit one
final `isDone` update without any continuation. -/

/-- The terminal update delivered to the UI callback on cancellation
(duration-dependent metric fields are wall-clock readings and are
omitted; the token counts are those of `calculateOutputTokens`). -/
structure FinalMsg where
  content : String
  isStreaming : Bool
  isDone : Bool
deriving DecidableEq, Repr

/-- The cancellation finalization path. -/
def cancelFinalize (accumulated : String) : FinalMsg :=
  let ext := extractThinking accumulated.data
  let c1 := removeToolCalls ext.1
  let c2 := cleanTrailingPunctuation c1
  ⟨String.mk (c2 ++ "\n\n⚠️ Request cancelled by user.".data), false, true⟩

/-!  ## Statement-level predicates -/

/-- No two adjacent characters are both whitespace. -/
def adjFree : Chars → Bool
  | [] => true
  | [_] => true
  | a :: b :: r => !(isWsChar a && isWsChar b) && adjFree (b :: r)

/-- Whether the first character is whitespace (false for the empty
text). -/
def headWs : Chars → Bool
  | [] => false
  | c :: _ => isWsChar c

/-- `pat` occurs (case-insensitively) in `s` at index `i`. -/
def OccursCI (pat s : Chars) (i : Nat) : Prop :=
  isPrefixOfCI pat (s.drop i) = true

/-- The text contains an opening tag followed (at or after its end) by
one of the closing alternatives — i.e. the tag pair pattern can match
somewhere. -/
def TagPair (s o : Chars) (cs : List Chars) : Prop :=
  ∃ i j c, c ∈ cs ∧ OccursCI o s i ∧ OccursCI c s j ∧ i + o.length ≤ j

/-- Decidable companion of `TagPair`: the first opening-tag occurrence
is followed by some closing alternative. -/
def tagPairFound (s o : Chars) (cs : List Chars) : Bool :=
  match findFromCI s o 0 with
  | none => false
  | some i => cs.any (fun c => (findFromCI s c (i + o.length)).isSome)

/-- The matched argument string parses to an object whose `query`
field is a non-empty string. -/
def queryNonEmptyString (args : Chars) : Bool :=
  match jsonParse args with
  | some j =>
    match fieldOf j "query" with
    | some (JVal.jstr q) => decide (q ≠ "")
    | _ => false
  | none => false

/-- The matched argument string parses to an object in which the
`query` field is missing or is the empty string. -/
def queryMissingOrEmpty (args : Chars) : Bool :=
  match jsonParse args with
  | some (JVal.jobj fs) =>
    match objLookup fs "query" with
    | none => true
    | some (JVal.jstr q) => decide (q = "")
    | some _ => false
  | _ => false

/-!  ## Concrete inputs and the id supply used by witnesses and
counterexamples -/

/-- The C4 input text. -/
def c4Input : String :=
  "Before \x7b\"name\":\"web_search\",\"arguments\":\x7b\"query\":\"x\"\x7d\x7d After"

/-- The C5 input text: a long prefix (so the start-preservation check
passes), a tool-call marker, and a blank line before the tail. -/
def c5Input : String :=
  "This prefix is definitely longer than fifty characters okay " ++
  "\x7b\"name\":\"web_search\",\"arguments\":\x7b\"query\":\"x\"\x7d\x7d" ++
  "\n\nTail"

/-- A concrete injective id supply standing for the source's
`Date.now()`/`Math.random()` id generation. -/
def idSupply (n : Nat) : String := String.mk (List.replicate n 'i')

/-- The C7 input: a native tool-call tag followed by an inline JSON
tool call. -/
def c7Input : String :=
  "<tool_call>\x7b\"name\":\"mytool\",\"arguments\":\x7b\"a\":1\x7d\x7d</tool_call> " ++
  "\x7b\"name\":\"web_search\",\"arguments\":\x7b\"query\":\"q\"\x7d\x7d"


/-!  # Theorems -/

/-!  ## Reconciler lemmas and claims C8, C2 -/

/-- Generalised form of the incremental-concatenation property: under
`incrSafe`, reconciliation appends every fragment. -/
theorem reconcileAll_of_incrSafe :
    ∀ (frags : List Chars) (A : Chars), incrSafe A frags = true →
      reconcileAll A frags = A ++ frags.flatten := by
  intro frags
  induction frags with
  | nil => intro A _; simp [reconcileAll]
  | cons F rest ih =>
    intro A h
    simp only [incrSafe, Bool.and_eq_true] at h
    obtain ⟨⟨hF, hA⟩, hrest⟩ := h
    have hFne : F ≠ [] := by simpa using hF
    have step : reconcileStep A F = A ++ F := by
      by_cases hAe : A = []
      · subst hAe
        simp [reconcileStep, hFne]
      · have hA' : (decide (F.length < A.length) && !((F.take 10).isSuffixOf A)) = true := by
          rw [Bool.or_eq_true] at hA
          rcases hA with h1 | h1
          · exact absurd (by simpa using h1) hAe
          · exact h1
        rw [Bool.and_eq_true] at hA'
        obtain ⟨hlt, hsuf⟩ := hA'
        have hlt' : F.length < A.length := of_decide_eq_true hlt
        have hsuf' : (F.take 10).isSuffixOf A = false := by simpa using hsuf
        simp [reconcileStep, hFne, hAe, hsuf', Nat.not_le.2 hlt', Nat.not_lt.2 (Nat.le_of_lt hlt')]
    have : reconcileAll A (F :: rest) = reconcileAll (reconcileStep A F) rest := rfl
    rw [this, step, ih (A ++ F) hrest]
    simp

/-- C8: content reconciliation is idempotent under replay — for every
non-empty accumulated text `A`, processing the same cumulative fragment
`A` again leaves the accumulated text equal to `A`. -/
theorem c8_replay_idempotent (A : Chars) (h : A ≠ []) : reconcileStep A A = A := by
  simp [reconcileStep, h, List.isPrefixOf_iff_prefix]

/-- Witness for C8 at the accumulated text `"abc"`. -/
theorem c8_replay_idempotent_witness :
    "abc".data ≠ [] ∧ reconcileStep "abc".data "abc".data = "abc".data :=
  ⟨by decide, c8_replay_idempotent "abc".data (by decide)⟩

/-- Counterexample to C2: the purely incremental fragment sequence
`["Hel", "lo world"]` (the model produced `"Hello world"` in two new
pieces, the second longer than the first) does not reconcile to the
concatenation — the first fragment is dropped because the longer second
fragment is mistaken for a cumulative resend. -/
theorem c2_concat_counterexample :
    reconcileAll [] ["Hel".data, "lo world".data] ≠
      ("Hel".data ++ "lo world".data : Chars) := by decide

/-- C2 (amended): for purely incremental fragment sequences in which
every fragment is non-empty and every fragment after the first is
strictly shorter than the text accumulated so far with its first (up to
10) characters not a suffix of that text, the final accumulated text is
the concatenation of the fragments in order. -/
theorem c2_incremental_concat (frags : List Chars) (h : incrSafe [] frags = true) :
    reconcileAll [] frags = frags.flatten := by
  simpa using reconcileAll_of_incrSafe frags [] h

/-- Witness for C2 (amended) on the fragment sequence
`["Hello", " wor", "ld"]`. -/
theorem c2_incremental_concat_witness :
    incrSafe [] ["Hello".data, " wor".data, "ld".data] = true ∧
      reconcileAll [] ["Hello".data, " wor".data, "ld".data] = "Hello world".data := by
  refine ⟨by decide, ?_⟩
  rw [c2_incremental_concat ["Hello".data, " wor".data, "ld".data] (by decide)]
  decide

/-!  ## Token metrics: claim C9 -/

/-- The natural-number ceiling division used by `estimateTokens` agrees
with the rational ceiling. -/
theorem estimateTokens_ceil (n : Nat) :
    (((n + 3) / 4 : Nat) : ℤ) = ⌈(n : ℚ) / 4⌉ := by
  obtain ⟨k, hk⟩ : ∃ k, (n + 3) / 4 = k := ⟨_, rfl⟩
  have hk1 : n ≤ 4 * k := by omega
  have hk2 : 4 * k ≤ n + 3 := by omega
  have hq1 : (n : ℚ) ≤ 4 * (k : ℚ) := by exact_mod_cast hk1
  have hq2 : 4 * (k : ℚ) ≤ (n : ℚ) + 3 := by exact_mod_cast hk2
  rw [hk, eq_comm, Int.ceil_eq_iff]
  constructor
  · rw [lt_div_iff₀ (by norm_num : (0 : ℚ) < 4)]
    push_cast
    linarith
  · rw [div_le_iff₀ (by norm_num : (0 : ℚ) < 4)]
    push_cast
    linarith

/-- Accumulator-generalised form of the input-token computation. -/
theorem calculateInputTokens_general :
    ∀ (l : List String) (a : Nat),
      l.foldl (fun total c => (if c.length ≠ 0 then total + estimateTokens c else total) + 4) a =
        a + (l.map estimateTokens).sum + 4 * l.length := by
  intro l
  induction l with
  | nil => intro a; simp
  | cons c t ih =>
    intro a
    simp only [List.foldl_cons, List.map_cons, List.sum_cons, List.length_cons]
    rw [ih]
    by_cases hc : c.length = 0
    · have : estimateTokens c = 0 := by simp [estimateTokens, hc]
      simp [hc, this]
      ring
    · simp [hc]
      ring

/-- C9: the token metrics — `estimateTokens` is 0 on the empty text and
otherwise the ceiling of length/4; the input-token count is the sum of
the estimates of the non-empty contents plus 4 per message; and
tokens-per-second is `(reasoning + output) / duration`, zero-guarded on
both the token sum and the duration. -/
theorem c9_token_metrics (t : String) (msgs : List String) (r o : Nat) (d : ℚ) :
    estimateTokens "" = 0
  ∧ ((estimateTokens t : ℤ) = ⌈(t.length : ℚ) / 4⌉)
  ∧ calculateInputTokens msgs = (msgs.map estimateTokens).sum + 4 * msgs.length
  ∧ (0 < r + o → 0 < d → tokensPerSecond r o d = ((r : ℚ) + o) / d)
  ∧ (r + o = 0 → tokensPerSecond r o d = 0)
  ∧ (d = 0 → tokensPerSecond r o d = 0) := by
  refine ⟨rfl, ?_, ?_, ?_, ?_, ?_⟩
  · by_cases hn : t.length = 0
    · simp [estimateTokens, hn]
    · rw [estimateTokens, if_neg hn]
      exact estimateTokens_ceil t.length
  · rw [calculateInputTokens, calculateInputTokens_general msgs 0, Nat.zero_add]
  · intro h1 h2
    rw [tokensPerSecond, if_pos ⟨h1, h2⟩]
  · intro h
    rw [tokensPerSecond, if_neg]
    intro hc
    exact absurd h (Nat.ne_of_gt hc.1)
  · intro h
    rw [tokensPerSecond, if_neg]
    intro hc
    exact absurd h (ne_of_gt hc.2)

/-- Witness for C9 at concrete values (`t = "abcde"`, two messages,
`r = 3`, `o = 5`, `d = 2`). -/
theorem c9_token_metrics_witness :
    0 < 3 + 5 ∧ (0 : ℚ) < 2 ∧ tokensPerSecond 3 5 2 = ((3 : ℚ) + 5) / 2 ∧
      (estimateTokens "abcde" : ℤ) = ⌈(("abcde".length : ℚ)) / 4⌉ := by
  have h := c9_token_metrics "abcde" ["ab", ""] 3 5 2
  exact ⟨by norm_num, by norm_num, h.2.2.2.1 (by norm_num) (by norm_num), h.2.1⟩

/-!  ## Continuation controller: claim C1 -/

/-- C1 fails on the code: a chain of 21 continuation rounds, each
requesting exactly one tool call, executes all 21 calls — the
per-invocation counter is re-initialised from the first history copy of
the assistant message, which carries only that round's batch, so the
budget never accumulates across rounds — and the chain never shows the
limit-reached message. -/
theorem c1_budget_bypassed :
    chainExecuted (List.replicate 21 [()]) = 21
  ∧ 20 < chainExecuted (List.replicate 21 [()])
  ∧ chainLimited (List.replicate 21 [()]) = false := by
  refine ⟨by decide, by decide, by decide⟩

/-!  ## Cancellation: claim C3 -/

/-- C3: cancellation mid-stream with accumulated text `"Partial ans"`
runs the normal finalization pipeline (extraction, tool-call removal,
trailing cleanup) and delivers the terminal update with exactly the
accumulated text, a blank line and the cancellation notice,
`isStreaming` false and the update marked done. -/
theorem c3_cancel_partial_ans :
    (cancelFinalize "Partial ans").content =
        "Partial ans\n\n⚠️ Request cancelled by user."
  ∧ (cancelFinalize "Partial ans").isStreaming = false
  ∧ (cancelFinalize "Partial ans").isDone = true := by
  refine ⟨by decide, rfl, rfl⟩

/-!  ## Tool-call removal: claims C4 and C5 -/

/-- Counterexample to C4: removing the tool-call marker from the C4
input does not yield `"Before After"` — the start-preservation check
trips on the removal (the first 50 characters of the original begin
with the marker text), so the conservative fallback re-removes the span
from the original text and skips the whitespace cleanup, leaving the
two spaces that surrounded the marker. -/
theorem c4_counterexample :
    removeToolCalls c4Input.data ≠ "Before After".data := by decide

/-- C4 (amended): removing the tool-call marker from the C4 input
yields `"Before  After"` — the surrounding words joined by the two
whitespace characters that flanked the marker, with no characters of
the words dropped or duplicated. -/
theorem c4_amended_double_space :
    removeToolCalls c4Input.data = "Before  After".data := by decide

/-- Counterexample to C5: the marker span `[60, 107)` is removed, but
the whitespace cleanup collapses the run formed by the trailing space
of the prefix and the blank line after the marker to a single space —
the blank line in the surrounding text is not preserved (the result
contains no newline at all), contradicting the claimed reconciliation
behaviour. -/
theorem c5_counterexample :
    removalMatches c5Input.data = [(60, 107)]
  ∧ removeToolCalls c5Input.data =
      "This prefix is definitely longer than fifty characters okay Tail".data
  ∧ '\n' ∈ c5Input.data
  ∧ '\n' ∉ removeToolCalls c5Input.data := by
  refine ⟨by decide, by decide, by decide, by decide⟩

/-!  ## Whitespace-cleanup properties: claim C5 (amended) -/

/-- The tail of an adjacency-free text is adjacency-free. -/
theorem adjFree_tail {x : Char} {l : Chars} (h : adjFree (x :: l) = true) :
    adjFree l = true := by
  cases l with
  | nil => rfl
  | cons b r =>
    simp only [adjFree, Bool.and_eq_true] at h
    exact h.2

/-- Extending an adjacency-free text with a character that does not
form a whitespace pair with its head. -/
theorem adjFree_cons {x : Char} {l : Chars} (h : adjFree l = true)
    (hx : isWsChar x = false ∨ headWs l = false) : adjFree (x :: l) = true := by
  cases l with
  | nil => rfl
  | cons b r =>
    simp only [adjFree, Bool.and_eq_true]
    refine ⟨?_, h⟩
    rcases hx with hx | hx
    · simp [hx]
    · simp only [headWs] at hx
      simp [hx]

/-- After a whitespace character, an adjacency-free text continues with
a non-whitespace character (or ends). -/
theorem adjFree_head_pair {x : Char} {l : Chars} (h : adjFree (x :: l) = true)
    (hx : isWsChar x = true) : headWs l = false := by
  cases l with
  | nil => rfl
  | cons b r =>
    simp only [adjFree, Bool.and_eq_true, Bool.not_eq_true', Bool.and_eq_false_iff] at h
    rcases h.1 with h1 | h1
    · exact absurd hx (by simp [h1])
    · simp [headWs, h1]

/-- The run-skipping state of the whitespace collapse never emits a
leading whitespace character. -/
theorem cwGo_run_head : ∀ l : Chars, headWs (cwGo CWState.run l) = false := by
  intro l
  induction l with
  | nil => rfl
  | cons x xs ih =>
    by_cases hx : isWsChar x
    · simpa [cwGo, hx] using ih
    · simp [cwGo, hx, headWs]

/-- The whitespace collapse produces adjacency-free text from any
state. -/
theorem adjFree_cwGo : ∀ (l : Chars) (st : CWState), adjFree (cwGo st l) = true := by
  intro l
  induction l with
  | nil => intro st; cases st <;> rfl
  | cons x xs ih =>
    intro st
    cases st with
    | norm =>
      by_cases hx : isWsChar x
      · simpa [cwGo, hx] using ih (CWState.pend x)
      · simp only [cwGo, if_neg hx]
        exact adjFree_cons (ih CWState.norm) (Or.inl (by simpa using hx))
    | pend c =>
      by_cases hx : isWsChar x
      · simp only [cwGo, if_pos hx]
        exact adjFree_cons (ih CWState.run) (Or.inr (cwGo_run_head xs))
      · simp only [cwGo, if_neg hx]
        refine adjFree_cons ?_ (Or.inr (by simp [headWs, hx]))
        exact adjFree_cons (ih CWState.norm) (Or.inl (by simpa using hx))
    | run =>
      by_cases hx : isWsChar x
      · simpa [cwGo, hx] using ih CWState.run
      · simp only [cwGo, if_neg hx]
        exact adjFree_cons (ih CWState.norm) (Or.inl (by simpa using hx))

/-- On adjacency-free text the space-before-newline pass is the
identity. -/
theorem spGo_id : ∀ l : Chars, adjFree l = true → spGo 0 l = l := by
  intro l
  induction l with
  | nil => intro _; rfl
  | cons x xs ih =>
    intro h
    by_cases hx : x = ' '
    · subst hx
      have hhead : headWs xs = false := adjFree_head_pair h (by simp [isWsChar])
      simp only [spGo, if_pos rfl]
      cases xs with
      | nil => rfl
      | cons y ys =>
        have hyw : isWsChar y = false := by simpa [headWs] using hhead
        have hy1 : ¬ y = ' ' := fun hc => by simp [hc, isWsChar] at hyw
        have hy2 : ¬ y = '\n' := fun hc => by simp [hc, isWsChar] at hyw
        have hys : spGo 0 ys = ys := by
          have := ih (adjFree_tail h)
          simp only [spGo, if_neg hy1, if_neg hy2, List.replicate, List.nil_append,
            List.cons.injEq, true_and] at this
          exact this
        simp [spGo, if_neg hy1, if_neg hy2, List.replicate, hys]
    · by_cases hx2 : x = '\n'
      · subst hx2
        simp [spGo, ih (adjFree_tail h)]
      · simp [spGo, hx, hx2, ih (adjFree_tail h)]

/-- On adjacency-free text the newline-run collapse is the identity. -/
theorem nlGo_id : ∀ l : Chars, adjFree l = true → nlGo 0 l = l := by
  intro l
  induction l with
  | nil => intro _; rfl
  | cons x xs ih =>
    intro h
    by_cases hx : x = '\n'
    · subst hx
      have hhead : headWs xs = false := adjFree_head_pair h (by simp [isWsChar])
      simp only [nlGo, if_pos rfl]
      cases xs with
      | nil => rfl
      | cons y ys =>
        have hyw : isWsChar y = false := by simpa [headWs] using hhead
        have hy : ¬ y = '\n' := fun hc => by simp [hc, isWsChar] at hyw
        have h30 : ¬ (3 ≤ 0) := by omega
        have h31 : ¬ (3 ≤ 1) := by omega
        have hys : nlGo 0 ys = ys := by
          have := ih (adjFree_tail h)
          simp only [nlGo, if_neg hy, flushNl, if_neg h30, List.replicate,
            List.nil_append, List.cons.injEq, true_and] at this
          exact this
        simp [nlGo, if_neg hy, flushNl, if_neg h31, List.replicate, hys]
    · have h30 : ¬ (3 ≤ 0) := by omega
      simp [nlGo, hx, flushNl, if_neg h30, List.replicate, ih (adjFree_tail h)]

/-- The text decomposes as its trimmed-end part followed by the dropped
whitespace suffix. -/
theorem trimEndL_decomp (s : Chars) :
    s = trimEndL s ++ (s.reverse.takeWhile isWsChar).reverse := by
  conv_lhs => rw [← List.reverse_reverse s,
    ← List.takeWhile_append_dropWhile isWsChar s.reverse]
  rw [List.reverse_append]
  rfl

/-- A left factor of an adjacency-free text is adjacency-free. -/
theorem adjFree_append_left : ∀ l t : Chars, adjFree (l ++ t) = true → adjFree l = true := by
  intro l
  induction l with
  | nil => intro t _; rfl
  | cons a l' ih =>
    intro t h
    cases l' with
    | nil => rfl
    | cons b r =>
      simp only [List.cons_append, adjFree, Bool.and_eq_true] at h ⊢
      exact ⟨h.1, by simpa [adjFree] using ih t (by simpa [List.cons_append] using h.2)⟩

/-- Trimming trailing whitespace preserves adjacency-freedom. -/
theorem adjFree_trimEnd {s : Chars} (h : adjFree s = true) :
    adjFree (trimEndL s) = true :=
  adjFree_append_left _ _ (by rw [← trimEndL_decomp s]; exact h)

/-- C5 (amended): whenever at least one tool-call marker is found, the
main path's whitespace cleanup collapses every run of two or more
whitespace characters — blank lines included — to a single space, so
the cleaned text never contains two adjacent whitespace characters;
blank lines are not preserved as blank lines (and the conservative
fallback path skips this cleanup entirely). -/
theorem c5_amended_cleanup_adjfree (s : Chars) : adjFree (cleanupWs s) = true := by
  have h1 := adjFree_cwGo s CWState.norm
  unfold cleanupWs
  rw [show stripSpacesBeforeNl (collapseWs s) = collapseWs s from spGo_id _ h1]
  rw [show collapseNl3 (collapseWs s) = collapseWs s from nlGo_id _ h1]
  exact adjFree_trimEnd h1

/-!  ## Thinking extraction: claim C10 -/

/-- A successful case-insensitive find yields an occurrence. -/
theorem findIdxCI_some_occurs (pat : Chars) :
    ∀ (t : Chars) (i : Nat), findIdxCI pat t = some i →
      isPrefixOfCI pat (t.drop i) = true := by
  intro t
  induction t with
  | nil =>
    intro i h
    by_cases hp : pat.isEmpty
    · simp only [findIdxCI, if_pos hp, Option.some.injEq] at h
      subst h
      cases pat with
      | nil => rfl
      | cons p ps => simp [List.isEmpty] at hp
    · simp [findIdxCI, hp] at h
  | cons c cs ih =>
    intro i h
    by_cases hpre : isPrefixOfCI pat (c :: cs) = true
    · simp only [findIdxCI, if_pos hpre, Option.some.injEq] at h
      subst h
      exact hpre
    · simp only [findIdxCI, if_neg hpre, Option.map_eq_some'] at h
      obtain ⟨i', hi', rfl⟩ := h
      simpa using ih i' hi'

/-- A successful case-insensitive find is the first occurrence. -/
theorem findIdxCI_min (pat : Chars) :
    ∀ (t : Chars) (i : Nat), findIdxCI pat t = some i →
      ∀ j, j < i → isPrefixOfCI pat (t.drop j) = false := by
  intro t
  induction t with
  | nil =>
    intro i h j hj
    by_cases hp : pat.isEmpty
    · simp only [findIdxCI, if_pos hp, Option.some.injEq] at h
      omega
    · simp [findIdxCI, hp] at h
  | cons c cs ih =>
    intro i h j hj
    by_cases hpre : isPrefixOfCI pat (c :: cs) = true
    · simp only [findIdxCI, if_pos hpre, Option.some.injEq] at h
      omega
    · simp only [findIdxCI, if_neg hpre, Option.map_eq_some'] at h
      obtain ⟨i', hi', rfl⟩ := h
      cases j with
      | zero => simpa using Bool.not_eq_true _ ▸ (by simpa using hpre)
      | succ j' => simpa using ih i' hi' j' (by omega)

/-- If an occurrence exists, the case-insensitive find succeeds. -/
theorem findIdxCI_isSome_of (pat : Chars) :
    ∀ (t : Chars) (j : Nat), isPrefixOfCI pat (t.drop j) = true →
      (findIdxCI pat t).isSome := by
  intro t
  induction t with
  | nil =>
    intro j h
    simp only [List.drop_nil] at h
    cases pat with
    | nil => simp [findIdxCI, List.isEmpty]
    | cons p ps => simp [isPrefixOfCI] at h
  | cons c cs ih =>
    intro j h
    by_cases hpre : isPrefixOfCI pat (c :: cs) = true
    · simp [findIdxCI, hpre]
    · cases j with
      | zero => exact absurd (by simpa using h) hpre
      | succ j' =>
        simp only [List.drop_succ_cons] at h
        simpa [findIdxCI, hpre] using ih j' h

/-- Specification of `findFromCI`: success yields an occurrence at or
after the start index. -/
theorem findFromCI_some {s pat : Chars} {st i : Nat}
    (h : findFromCI s pat st = some i) : st ≤ i ∧ OccursCI pat s i := by
  simp only [findFromCI, Option.map_eq_some'] at h
  obtain ⟨i', hi', rfl⟩ := h
  refine ⟨by omega, ?_⟩
  have := findIdxCI_some_occurs pat (s.drop st) i' hi'
  rw [List.drop_drop] at this
  rw [Nat.add_comm st i'] at this
  exact this

/-- `findFromCI` returns the first occurrence at or after the start
index. -/
theorem findFromCI_min {s pat : Chars} {st i : Nat}
    (h : findFromCI s pat st = some i) :
    ∀ j, st ≤ j → j < i → ¬ OccursCI pat s j := by
  intro j hstj hji hocc
  simp only [findFromCI, Option.map_eq_some'] at h
  obtain ⟨i', hi', rfl⟩ := h
  have hmin := findIdxCI_min pat (s.drop st) i' hi' (j - st) (by omega)
  rw [List.drop_drop] at hmin
  have heq : st + (j - st) = j := by omega
  rw [heq] at hmin
  exact absurd hocc (by simp [OccursCI, hmin])

/-- If an occurrence exists at or after the start index, `findFromCI`
succeeds. -/
theorem findFromCI_isSome_of {s pat : Chars} {st j : Nat}
    (hocc : OccursCI pat s j) (hj : st ≤ j) : (findFromCI s pat st).isSome := by
  have : isPrefixOfCI pat ((s.drop st).drop (j - st)) = true := by
    rw [List.drop_drop]
    have heq : st + (j - st) = j := by omega
    rw [heq]
    exact hocc
  have := findIdxCI_isSome_of pat (s.drop st) (j - st) this
  simpa [findFromCI] using this

/-- If no closing alternative occurs, the close search fails. -/
theorem closeCandidate_none_of (s : Chars) (i : Nat) :
    ∀ cs : List Chars, (∀ c ∈ cs, findFromCI s c i = none) →
      closeCandidate s cs i = none := by
  have general : ∀ (cs : List Chars), (∀ c ∈ cs, findFromCI s c i = none) →
      List.foldl (fun acc c =>
        match findFromCI s c i with
        | none => acc
        | some j =>
          match acc with
          | none => some (j, c.length)
          | some jl => if j < jl.1 then some (j, c.length) else some jl)
        none cs = none := by
    intro cs
    induction cs with
    | nil => intro _; rfl
    | cons c cs' ih =>
      intro h
      simp only [List.foldl_cons, h c (by simp)]
      exact ih (fun c' hc' => h c' (by simp [hc']))
  intro cs h
  exact general cs h

/-- A successful close search exhibits a closing alternative that
occurs. -/
theorem closeCandidate_some_ex {s : Chars} {i : Nat} {cs : List Chars} {jl : Nat × Nat}
    (h : closeCandidate s cs i = some jl) :
    ∃ c ∈ cs, (findFromCI s c i).isSome := by
  by_contra hc
  push_neg at hc
  have hall : ∀ c ∈ cs, findFromCI s c i = none := by
    intro c hmem
    have := hc c hmem
    cases hcc : findFromCI s c i with
    | none => rfl
    | some j => exact absurd (by simp [hcc]) this
  rw [closeCandidate_none_of s i cs hall] at h
  exact Option.noConfusion h

/-- When the tag-pair pattern cannot match, the match scan is empty. -/
theorem matchAllTag_eq_nil_of_not_pair (s o : Chars) (cs : List Chars)
    (h : ¬ TagPair s o cs) : matchAllTag s o cs = [] := by
  cases hf : findFromCI s o 0 with
  | none => simp [matchAllTag, matchAllTagAux, hf]
  | some ob =>
    have hcc : closeCandidate s cs (ob + o.length) = none := by
      cases hcc : closeCandidate s cs (ob + o.length) with
      | none => rfl
      | some jl =>
        obtain ⟨c, hcmem, hsome⟩ := closeCandidate_some_ex hcc
        obtain ⟨j, hj⟩ := Option.isSome_iff_exists.1 hsome
        obtain ⟨hle, hocc⟩ := findFromCI_some hj
        obtain ⟨_, hoOcc⟩ := findFromCI_some hf
        exact absurd ⟨ob, j, c, hcmem, hoOcc, hocc, hle⟩ h
    simp [matchAllTag, matchAllTagAux, hf, hcc]

/-- `TagPair` is monotone in the set of closing alternatives. -/
theorem tagPair_mono {s o : Chars} {cs cs' : List Chars} (hsub : cs ⊆ cs') :
    TagPair s o cs → TagPair s o cs' := by
  rintro ⟨i, j, c, hc, hoi, hcj, hle⟩
  exact ⟨i, j, c, hsub hc, hoi, hcj, hle⟩

/-- Bridge from the decidable check to the semantic absence of a tag
pair. -/
theorem not_tagPair_of_not_found {s o : Chars} {cs : List Chars}
    (h : tagPairFound s o cs = false) : ¬ TagPair s o cs := by
  rintro ⟨i, j, c, hc, hoi, hcj, hle⟩
  unfold tagPairFound at h
  cases hf : findFromCI s o 0 with
  | none =>
    have := findFromCI_isSome_of hoi (Nat.zero_le i)
    simp [hf] at this
  | some i0 =>
    rw [hf] at h
    have hmin : i0 ≤ i := by
      by_contra hlt
      push_neg at hlt
      exact findFromCI_min hf i (Nat.zero_le i) hlt hoi
    have hsome : (findFromCI s c (i0 + o.length)).isSome :=
      findFromCI_isSome_of hcj (le_trans (Nat.add_le_add_right hmin _) hle)
    rw [List.any_eq_false] at h
    exact absurd hsome (by simpa using h c hc)

/-- C10: on text in which none of the thinking-tag patterns can match
(no `<think>` closed by `</think>` or `</redacted_reasoning>`, and no
`<reasoning>`, `<thought>` or `<internal>` with its matching close),
`extractThinking` is the identity: the visible text is returned
completely unchanged — not even trailing whitespace is trimmed — and
the thinking text is empty. -/
theorem c10_no_tag_identity (t : Chars)
    (h1 : ¬ TagPair t "<think>".data ["</think>".data, "</redacted_reasoning>".data])
    (h2 : ¬ TagPair t "<reasoning>".data ["</reasoning>".data])
    (h3 : ¬ TagPair t "<thought>".data ["</thought>".data])
    (h4 : ¬ TagPair t "<internal>".data ["</internal>".data]) :
    extractThinking t = (t, []) := by
  have m1 := matchAllTag_eq_nil_of_not_pair t _ _ h1
  have m1a : matchAllTag t "<think>".data ["</think>".data] = [] := by
    refine matchAllTag_eq_nil_of_not_pair t _ _ (fun hp => h1 (tagPair_mono ?_ hp))
    intro x hx
    simp only [List.mem_singleton] at hx
    simp [hx]
  have m1b : matchAllTag t "<think>".data ["</redacted_reasoning>".data] = [] := by
    refine matchAllTag_eq_nil_of_not_pair t _ _ (fun hp => h1 (tagPair_mono ?_ hp))
    intro x hx
    simp only [List.mem_singleton] at hx
    simp [hx]
  have m2 := matchAllTag_eq_nil_of_not_pair t _ _ h2
  have m3 := matchAllTag_eq_nil_of_not_pair t _ _ h3
  have m4 := matchAllTag_eq_nil_of_not_pair t _ _ h4
  have hloop : extractLoop t thinkingPatterns = (t, []) := by
    simp [extractLoop, thinkingPatterns, m1a, m1b, m2, m3, m4]
  unfold extractThinking
  by_cases hinc : (findFrom t "<think>".data 0).isSome
  · simp [hinc, m1, hloop]
  · simp [hinc, hloop]

/-- Witness for C10 on plain text without any thinking tags. -/
theorem c10_no_tag_identity_witness :
    extractThinking "Just plain text.".data = ("Just plain text.".data, []) :=
  c10_no_tag_identity _
    (not_tagPair_of_not_found (by decide))
    (not_tagPair_of_not_found (by decide))
    (not_tagPair_of_not_found (by decide))
    (not_tagPair_of_not_found (by decide))

/-!  ## Tool-call extraction: claim C6 -/

/-- Enum-map projection that ignores the index. -/
theorem enum_map_proj {α β : Type} (l : List α) (g : α → β) :
    l.enum.map (fun km => g km.2) = l.map g := by
  have h : (fun (km : Nat × α) => g km.2) = g ∘ Prod.snd := rfl
  rw [h, ← List.map_map, List.enum_map_snd]

/-- Enum-map projection that ignores the element. -/
theorem enum_map_idx {α β : Type} (l : List α) (f : Nat → β) :
    l.enum.map (fun km => f km.1) = (List.range l.length).map f := by
  have h : (fun (km : Nat × α) => f km.1) = f ∘ Prod.fst := rfl
  rw [h, ← List.map_map, List.enum_map_fst]

/-- Every valid inline JSON match contributes a collected tool call
with its name and raw argument string. -/
theorem mem_parseToolCalls_of_validJson {s : Chars} {fresh : Nat → String} {m : JMatch}
    (hm : m ∈ validJsonMatches s) :
    ∃ tc ∈ parseToolCalls s fresh, tc.fn = ⟨m.name, String.mk m.args⟩ := by
  have hfn : (⟨m.name, String.mk m.args⟩ : ToolFn) ∈
      ((validJsonMatches s).enum.map
        (fun km => (⟨fresh km.1, "function", ⟨km.2.name, String.mk km.2.args⟩⟩ : ToolCall))).map
        ToolCall.fn := by
    rw [List.map_map]
    have h : (ToolCall.fn ∘ fun (km : Nat × JMatch) =>
        (⟨fresh km.1, "function", ⟨km.2.name, String.mk km.2.args⟩⟩ : ToolCall)) =
        (fun km => (⟨km.2.name, String.mk km.2.args⟩ : ToolFn)) := rfl
    rw [h, enum_map_proj (validJsonMatches s) (fun mm => (⟨mm.name, String.mk mm.args⟩ : ToolFn))]
    exact List.mem_map_of_mem _ hm
  obtain ⟨tc, htc, hfneq⟩ := List.mem_map.1 hfn
  exact ⟨tc, List.mem_append_left _ htc, hfneq⟩

/-- C6: for every inline JSON web-search tool-call occurrence matched
in the text, extraction accepts it (a `ToolCall` with the match's name
and argument string is collected) when the arguments' `query` field is
a non-empty string, and rejects it (the match fails validation, so no
call is produced for it) when `query` is missing or empty. -/
theorem c6_websearch_query (s : Chars) (fresh : Nat → String) (m : JMatch)
    (hm : m ∈ jsonCallMatches s) (hname : m.name = "web_search") :
    (queryNonEmptyString m.args = true →
      ∃ tc ∈ parseToolCalls s fresh,
        tc.fn.name = "web_search" ∧ tc.fn.arguments = String.mk m.args)
  ∧ (queryMissingOrEmpty m.args = true → validArgsParse m.name m.args = false) := by
  constructor
  · intro hq
    have hvalid : validArgsParse m.name m.args = true := by
      rw [hname]
      unfold queryNonEmptyString at hq
      unfold validArgsParse
      cases hp : jsonParse m.args with
      | none => simp only [hp] at hq; simp at hq
      | some j =>
        simp only [hp] at hq
        cases hf : fieldOf j "query" with
        | none => simp only [hf] at hq; simp at hq
        | some v =>
          simp only [hf] at hq
          cases v with
          | jstr q =>
            have hobj : isObjType j = true := by
              cases j <;> simp_all [fieldOf, isObjType]
            have hqne : q ≠ "" := by simpa using hq
            simp [hobj, fieldTruthy, hf, jsTruthy, hqne]
          | jnull => simp at hq
          | jbool b => simp at hq
          | jnum x => simp at hq
          | jarr xs => simp at hq
          | jobj fs => simp at hq
    have hmem : m ∈ validJsonMatches s := List.mem_filter.2 ⟨hm, hvalid⟩
    obtain ⟨tc, htc, hfn⟩ := @mem_parseToolCalls_of_validJson s fresh m hmem
    refine ⟨tc, htc, ?_, ?_⟩
    · rw [hfn, hname]
    · rw [hfn]
  · intro hq
    rw [hname]
    unfold validArgsParse
    unfold queryMissingOrEmpty at hq
    cases hp : jsonParse m.args with
    | none => simp
    | some j =>
      simp only [hp] at hq
      cases j with
      | jobj fs =>
        cases hl : objLookup fs "query" with
        | none => simp [fieldTruthy, fieldOf, hl]
        | some v =>
          simp only [hl] at hq
          cases v with
          | jstr q =>
            have hqe : q = "" := by simpa using hq
            simp [fieldTruthy, fieldOf, hl, jsTruthy, hqe]
          | jnull => simp at hq
          | jbool b => simp at hq
          | jnum x => simp at hq
          | jarr xs => simp at hq
          | jobj fs2 => simp at hq
      | jnull => simp at hq
      | jbool b => simp at hq
      | jnum x => simp at hq
      | jstr q => simp at hq
      | jarr xs => simp at hq

/-- Witness for C6 on a text carrying one web-search call with a
non-empty query. -/
theorem c6_websearch_query_witness :
    ∃ tc ∈ parseToolCalls
        "Call \x7b\"name\":\"web_search\",\"arguments\":\x7b\"query\":\"cats\"\x7d\x7d now".data
        (fun n => String.mk (List.replicate n 'i')),
      tc.fn.name = "web_search" ∧
      tc.fn.arguments = String.mk (⟨5, 55, "web_search",
        "\x7b\"query\":\"cats\"\x7d".data⟩ : JMatch).args := by
  refine (c6_websearch_query _ _ _ ?_ ?_).1 ?_
  · decide
  · rfl
  · decide

/-!  ## Tool-call collection: claim C7 -/

/-- A case-insensitive prefix is no longer than the text. -/
theorem isPrefixOfCI_length : ∀ {p t : Chars}, isPrefixOfCI p t = true → p.length ≤ t.length := by
  intro p
  induction p with
  | nil => intro t _; simp
  | cons a as ih =>
    intro t h
    cases t with
    | nil => simp [isPrefixOfCI] at h
    | cons b bs =>
      simp only [isPrefixOfCI, Bool.and_eq_true] at h
      simpa using ih h.2

/-- Length accounting for a consumed literal. -/
theorem expectS_len {pat t r : Chars} (h : expectS pat t = some r) :
    r.length + pat.length = t.length := by
  unfold expectS at h
  by_cases hp : pat.isPrefixOf t
  · rw [if_pos hp, Option.some.injEq] at h
    have hle : pat.length ≤ t.length := ( List.isPrefixOf_iff_prefix.1 hp).length_le
    subst h
    simp only [List.length_drop]
    omega
  · rw [if_neg hp] at h
    exact absurd h (by simp)

/-- Length accounting for a consumed case-insensitive literal. -/
theorem expectCI_len {pat t r : Chars} (h : expectCI pat t = some r) :
    r.length + pat.length = t.length := by
  unfold expectCI at h
  by_cases hp : isPrefixOfCI pat t = true
  · rw [if_pos hp, Option.some.injEq] at h
    have hle := isPrefixOfCI_length hp
    subst h
    simp only [List.length_drop]
    omega
  · rw [if_neg hp] at h
    exact absurd h (by simp)

/-- The tool-name alternation consumes at most the input. -/
theorem matchToolName_len {t : Chars} {n : String} {r : Chars}
    (h : matchToolName t = some (n, r)) : r.length ≤ t.length := by
  unfold matchToolName at h
  cases hfind : toolNameLits.find? (fun nm => nm.data.isPrefixOf t) with
  | some nm =>
    simp only [hfind, Option.some.injEq, Prod.mk.injEq] at h
    obtain ⟨-, hr⟩ := h
    subst hr
    simp only [List.length_drop]
    omega
  | none =>
    simp only [hfind] at h
    cases hexp : expectS "tool_".data t with
    | none =>
      simp only [hexp] at h
      exact Option.noConfusion h
    | some rest =>
      simp only [hexp] at h
      by_cases hw : (rest.takeWhile isWordChar).isEmpty
      · rw [if_pos hw] at h
        exact absurd h (by simp)
      · rw [if_neg hw, Option.some.injEq, Prod.mk.injEq] at h
        obtain ⟨-, hr⟩ := h
        subst hr
        have := expectS_len hexp
        simp only [List.length_drop]
        omega

/-- The argument-object loop consumes at most the input. -/
theorem argsLoopAux_len : ∀ (fuel : Nat) (acc t a r : Chars),
    argsLoopAux fuel acc t = some (a, r) → r.length ≤ t.length := by
  intro fuel
  induction fuel with
  | zero => intro acc t a r h; exact absurd h (by simp [argsLoopAux])
  | succ fu ih =>
    intro acc t a r h
    cases t with
    | nil => exact absurd h (by simp [argsLoopAux])
    | cons c r0 =>
      simp only [argsLoopAux] at h
      by_cases hc : c = '\x7d'
      · rw [if_pos hc, Option.some.injEq, Prod.mk.injEq] at h
        obtain ⟨-, hr⟩ := h
        subst hr
        simp
      · rw [if_neg hc] at h
        by_cases hb : c = '\x7b'
        · rw [if_pos hb] at h
          cases hdr : r0.drop (r0.takeWhile nonBraceChar).length with
          | nil =>
            simp only [hdr] at h
            exact Option.noConfusion h
          | cons c2 r2 =>
            simp only [hdr] at h
            by_cases hc2 : c2 = '\x7d'
            · rw [if_pos hc2] at h
              have hrec := ih _ _ _ _ h
              have hd2 : (r2.drop (r2.takeWhile nonBraceChar).length).length ≤ r2.length := by
                simp only [List.length_drop]
                omega
              have hlen2 : r2.length < r0.length := by
                have := congrArg List.length hdr
                simp only [List.length_drop, List.length_cons] at this
                omega
              simp only [List.length_cons]
              omega
            · rw [if_neg hc2] at h
              exact absurd h (by simp)
        · rw [if_neg hb] at h
          exact absurd h (by simp)

/-- The argument-object matcher consumes at most the input. -/
theorem matchArgsGroup_len {t a r : Chars} (h : matchArgsGroup t = some (a, r)) :
    r.length ≤ t.length := by
  cases t with
  | nil =>
    simp only [matchArgsGroup] at h
    exact Option.noConfusion h
  | cons c r0 =>
    simp only [matchArgsGroup] at h
    by_cases hb : c = '\x7b'
    · rw [if_pos hb] at h
      have := argsLoopAux_len _ _ _ _ _ h
      have hd : (r0.drop (r0.takeWhile nonBraceChar).length).length ≤ r0.length := by
        simp only [List.length_drop]
        omega
      simp only [List.length_cons]
      omega
    · rw [if_neg hb] at h
      exact absurd h (by simp)

/-- A successful inline JSON tool-call match strictly consumes input. -/
theorem matchJsonCallSuffix_len {t : Chars} {n : String} {a r : Chars}
    (h : matchJsonCallSuffix t = some (n, a, r)) : r.length < t.length := by
  unfold matchJsonCallSuffix at h
  cases h1 : expectS "\x7b\"name\"".data t with
  | none => simp only [h1] at h; exact Option.noConfusion h
  | some t1 =>
    simp only [h1] at h
    cases h3 : expectS ":".data (t1.dropWhile isWsChar) with
    | none => simp only [h3] at h; exact Option.noConfusion h
    | some t3 =>
      simp only [h3] at h
      cases h5 : expectS "\"".data (t3.dropWhile isWsChar) with
      | none => simp only [h5] at h; exact Option.noConfusion h
      | some t5 =>
        simp only [h5] at h
        cases h6 : matchToolName t5 with
        | none => simp only [h6] at h; exact Option.noConfusion h
        | some nt6 =>
          simp only [h6] at h
          cases h7 : expectS "\"".data nt6.2 with
          | none => simp only [h7] at h; exact Option.noConfusion h
          | some t7 =>
            simp only [h7] at h
            cases h9 : expectS ",".data (t7.dropWhile isWsChar) with
            | none => simp only [h9] at h; exact Option.noConfusion h
            | some t9 =>
              simp only [h9] at h
              cases h11 : expectS "\"arguments\"".data (t9.dropWhile isWsChar) with
              | none => simp only [h11] at h; exact Option.noConfusion h
              | some t11 =>
                simp only [h11] at h
                cases h13 : expectS ":".data (t11.dropWhile isWsChar) with
                | none => simp only [h13] at h; exact Option.noConfusion h
                | some t13 =>
                  simp only [h13] at h
                  cases h15 : matchArgsGroup (t13.dropWhile isWsChar) with
                  | none => simp only [h15] at h; exact Option.noConfusion h
                  | some ar15 =>
                    simp only [h15] at h
                    cases h16 : expectS "\x7d".data ar15.2 with
                    | none => simp only [h16] at h; exact Option.noConfusion h
                    | some t16 =>
                      simp only [h16, Option.some.injEq, Prod.mk.injEq] at h
                      obtain ⟨-, -, hr⟩ := h
                      subst hr
                      have e1 := expectS_len h1
                      have d1 := lenDropWhileLe isWsChar t1
                      have e3 := expectS_len h3
                      have d3 := lenDropWhileLe isWsChar t3
                      have e5 := expectS_len h5
                      have m6 := @matchToolName_len t5 nt6.1 nt6.2 (by rw [h6])
                      have e7 := expectS_len h7
                      have d7 := lenDropWhileLe isWsChar t7
                      have e9 := expectS_len h9
                      have d9 := lenDropWhileLe isWsChar t9
                      have e11 := expectS_len h11
                      have d11 := lenDropWhileLe isWsChar t11
                      have e13 := expectS_len h13
                      have d13 := lenDropWhileLe isWsChar t13
                      have m15 := @matchArgsGroup_len (t13.dropWhile isWsChar)
                        ar15.1 ar15.2 (by rw [h15])
                      have e16 := expectS_len h16
                      simp only [List.length_cons, String.length] at e1 e3 e5 e7 e9 e11 e13 e16
                      omega

/-- The lazy body scan of the native form consumes at most the
input. -/
theorem tagLazyScan_len : ∀ (fuel : Nat) (acc t g r : Chars),
    tagLazyScan fuel acc t = some (g, r) → r.length ≤ t.length := by
  intro fuel
  induction fuel with
  | zero => intro acc t g r h; exact absurd h (by simp [tagLazyScan])
  | succ fu ih =>
    intro acc t g r h
    cases t with
    | nil => exact absurd h (by simp [tagLazyScan])
    | cons c r0 =>
      simp only [tagLazyScan] at h
      by_cases hc : c = '\x7d'
      · rw [if_pos hc] at h
        by_cases hp : isPrefixOfCI "</tool_call>".data (r0.dropWhile isWsChar) = true
        · rw [if_pos hp, Option.some.injEq, Prod.mk.injEq] at h
          obtain ⟨-, hr⟩ := h
          subst hr
          have hd := lenDropWhileLe isWsChar r0
          simp only [List.length_drop, List.length_cons]
          omega
        · rw [if_neg hp] at h
          have := ih _ _ _ _ h
          simp only [List.length_cons]
          omega
      · rw [if_neg hc] at h
        have := ih _ _ _ _ h
        simp only [List.length_cons]
        omega

/-- A successful native tool-call match strictly consumes input. -/
theorem matchTagCallSuffix_len {t g r : Chars}
    (h : matchTagCallSuffix t = some (g, r)) : r.length < t.length := by
  unfold matchTagCallSuffix at h
  cases h1 : expectCI "<tool_call>".data t with
  | none =>
    simp only [h1] at h
    exact Option.noConfusion h
  | some t1 =>
    simp only [h1] at h
    cases hdw : t1.dropWhile isWsChar with
    | nil =>
      simp only [hdw] at h
      exact Option.noConfusion h
    | cons c r0 =>
      simp only [hdw] at h
      by_cases hb : c = '\x7b'
      · rw [if_pos hb] at h
        have hscan := tagLazyScan_len _ _ _ _ _ h
        have e1 := expectCI_len h1
        have hd1 : (t1.dropWhile isWsChar).length ≤ t1.length := lenDropWhileLe isWsChar t1
        rw [hdw] at hd1
        simp only [List.length_cons, String.length] at hd1 e1 ⊢
        omega
      · rw [if_neg hb] at h
        exact absurd h (by simp)

/-- Every match returned by the inline scan starts at or after the
scan position. -/
theorem scanJson_start_ge (s : Chars) : ∀ (fuel i : Nat) (m : JMatch),
    m ∈ scanJsonCalls s i fuel → i ≤ m.start := by
  intro fuel
  induction fuel with
  | zero => intro i m h; simp [scanJsonCalls] at h
  | succ fu ih =>
    intro i m h
    by_cases hlen : s.length ≤ i
    · simp [scanJsonCalls, hlen] at h
    · simp only [scanJsonCalls, if_neg hlen] at h
      cases hm : matchJsonCallSuffix (s.drop i) with
      | none =>
        rw [hm] at h
        have := ih (i + 1) m h
        omega
      | some nar =>
        rw [hm] at h
        rcases List.mem_cons.1 h with rfl | htail
        · exact Nat.le_refl i
        · have hge := ih _ m htail
          have hlt := @matchJsonCallSuffix_len (s.drop i)
            nar.1 nar.2.1 nar.2.2 (by rw [hm])
          simp only [List.length_drop] at hlt
          omega

/-- The inline scan returns matches with strictly increasing start
positions. -/
theorem scanJson_pairwise (s : Chars) : ∀ (fuel i : Nat),
    ((scanJsonCalls s i fuel).map JMatch.start).Pairwise (· < ·) := by
  intro fuel
  induction fuel with
  | zero => intro i; simp [scanJsonCalls]
  | succ fu ih =>
    intro i
    by_cases hlen : s.length ≤ i
    · simp [scanJsonCalls, hlen]
    · simp only [scanJsonCalls, if_neg hlen]
      cases hm : matchJsonCallSuffix (s.drop i) with
      | none => exact ih (i + 1)
      | some nar =>
        simp only [List.map_cons, List.pairwise_cons]
        constructor
        · intro b hb
          obtain ⟨m, hmem, rfl⟩ := List.mem_map.1 hb
          have hge := scanJson_start_ge s fu _ m hmem
          have hlt := @matchJsonCallSuffix_len (s.drop i)
            nar.1 nar.2.1 nar.2.2 (by rw [hm])
          simp only [List.length_drop] at hlt
          omega
        · exact ih _

/-- Every match returned by the native scan starts at or after the
scan position. -/
theorem scanTag_start_ge (s : Chars) : ∀ (fuel i : Nat) (m : TMatch),
    m ∈ scanTagCalls s i fuel → i ≤ m.start := by
  intro fuel
  induction fuel with
  | zero => intro i m h; simp [scanTagCalls] at h
  | succ fu ih =>
    intro i m h
    by_cases hlen : s.length ≤ i
    · simp [scanTagCalls, hlen] at h
    · simp only [scanTagCalls, if_neg hlen] at h
      cases hm : matchTagCallSuffix (s.drop i) with
      | none =>
        rw [hm] at h
        have := ih (i + 1) m h
        omega
      | some ir =>
        rw [hm] at h
        rcases List.mem_cons.1 h with rfl | htail
        · exact Nat.le_refl i
        · have hge := ih _ m htail
          have hlt := @matchTagCallSuffix_len (s.drop i) ir.1 ir.2 (by rw [hm])
          simp only [List.length_drop] at hlt
          omega

/-- The native scan returns matches with strictly increasing start
positions. -/
theorem scanTag_pairwise (s : Chars) : ∀ (fuel i : Nat),
    ((scanTagCalls s i fuel).map TMatch.start).Pairwise (· < ·) := by
  intro fuel
  induction fuel with
  | zero => intro i; simp [scanTagCalls]
  | succ fu ih =>
    intro i
    by_cases hlen : s.length ≤ i
    · simp [scanTagCalls, hlen]
    · simp only [scanTagCalls, if_neg hlen]
      cases hm : matchTagCallSuffix (s.drop i) with
      | none => exact ih (i + 1)
      | some ir =>
        simp only [List.map_cons, List.pairwise_cons]
        constructor
        · intro b hb
          obtain ⟨m, hmem, rfl⟩ := List.mem_map.1 hb
          have hge := scanTag_start_ge s fu _ m hmem
          have hlt := @matchTagCallSuffix_len (s.drop i) ir.1 ir.2 (by rw [hm])
          simp only [List.length_drop] at hlt
          omega
        · exact ih _

/-- The collected ids are the fresh supply applied to an initial
segment of the counters. -/
theorem parseToolCalls_ids (s : Chars) (fresh : Nat → String) :
    (parseToolCalls s fresh).map ToolCall.id =
      (List.range' 0 ((validJsonMatches s).length + (validTagPayloads s).length)).map fresh := by
  simp only [parseToolCalls, List.map_append, List.map_map]
  have h1 : (ToolCall.id ∘ fun (km : Nat × JMatch) =>
      (⟨fresh km.1, "function", ⟨km.2.name, String.mk km.2.args⟩⟩ : ToolCall)) =
      (fun km => fresh km.1) := rfl
  have h2 : (ToolCall.id ∘ fun (kp : Nat × (String × String)) =>
      (⟨fresh ((validJsonMatches s).length + kp.1), "function", ⟨kp.2.1, kp.2.2⟩⟩ : ToolCall)) =
      (fun kp => fresh ((validJsonMatches s).length + kp.1)) := rfl
  rw [h1, h2, enum_map_idx (validJsonMatches s) fresh,
    enum_map_idx (validTagPayloads s) (fun k => fresh ((validJsonMatches s).length + k))]
  rw [List.range_eq_range']
  have h3 : (List.range (validTagPayloads s).length).map
      (fun k => fresh ((validJsonMatches s).length + k)) =
      (List.range' ((validJsonMatches s).length) ((validTagPayloads s).length)).map fresh := by
    rw [List.range'_eq_map_range, List.map_map]
    rfl
  rw [h3, ← List.map_append]
  have h4 : List.range' 0 (validJsonMatches s).length ++
      List.range' ((validJsonMatches s).length) ((validTagPayloads s).length) =
      List.range' 0 ((validJsonMatches s).length + (validTagPayloads s).length) := by
    have := List.range'_append 0 (validJsonMatches s).length (validTagPayloads s).length 1
    simpa [Nat.add_comm] using this
  rw [h4]

/-- The collected names are the valid inline-JSON match names followed
by the valid native payload names. -/
theorem parseToolCalls_names (s : Chars) (fresh : Nat → String) :
    (parseToolCalls s fresh).map (fun tc => tc.fn.name) =
      (validJsonMatches s).map JMatch.name ++ (validTagPayloads s).map Prod.fst := by
  simp only [parseToolCalls, List.map_append, List.map_map]
  have h1 : ((fun tc => tc.fn.name) ∘ fun (km : Nat × JMatch) =>
      (⟨fresh km.1, "function", ⟨km.2.name, String.mk km.2.args⟩⟩ : ToolCall)) =
      (fun km => km.2.name) := rfl
  have h2 : ((fun tc => tc.fn.name) ∘ fun (kp : Nat × (String × String)) =>
      (⟨fresh ((validJsonMatches s).length + kp.1), "function", ⟨kp.2.1, kp.2.2⟩⟩ : ToolCall)) =
      (fun kp => kp.2.1) := rfl
  rw [h1, h2, enum_map_proj (validJsonMatches s) JMatch.name,
    enum_map_proj (validTagPayloads s) Prod.fst]

/-- The concrete id supply is injective. -/
theorem idSupply_injective : Function.Injective idSupply := by
  intro a b h
  have hdata : List.replicate a 'i' = List.replicate b 'i' := congrArg String.data h
  have := congrArg List.length hdata
  simpa using this

/-- Counterexample to C7: on the C7 input the native tag match starts
at position 0 and the inline JSON match at position 61, yet the
collected list places the inline `web_search` call first — the two
forms are not merged into order of appearance. -/
theorem c7_counterexample :
    ((parseToolCalls c7Input.data idSupply).map (fun tc => tc.fn.name) =
      ["web_search", "mytool"])
  ∧ ((tagCallMatches c7Input.data).map TMatch.start = [0])
  ∧ ((jsonCallMatches c7Input.data).map JMatch.start = [61]) := by
  refine ⟨by decide, by decide, by decide⟩

/-- C7 (amended): tool-call parsing collects all valid inline JSON
matches in their order of appearance, followed by all valid native
matches in their order of appearance (each scan yields strictly
increasing match positions), and — for an injective fresh-id supply —
every collected call carries an id unique among the collected calls. -/
theorem c7_both_forms_fresh_ids (s : Chars) (fresh : Nat → String)
    (hinj : Function.Injective fresh) :
    ((parseToolCalls s fresh).map ToolCall.id).Nodup
  ∧ ((parseToolCalls s fresh).map (fun tc => tc.fn.name) =
      (validJsonMatches s).map JMatch.name ++ (validTagPayloads s).map Prod.fst)
  ∧ ((jsonCallMatches s).map JMatch.start).Pairwise (· < ·)
  ∧ ((tagCallMatches s).map TMatch.start).Pairwise (· < ·) := by
  refine ⟨?_, parseToolCalls_names s fresh, scanJson_pairwise s _ 0, scanTag_pairwise s _ 0⟩
  rw [parseToolCalls_ids s fresh]
  exact (List.nodup_range' _ _).map hinj

/-- Witness for C7 (amended) on the C7 input with the injective
concrete supply. -/
theorem c7_both_forms_fresh_ids_witness :
    ((parseToolCalls c7Input.data idSupply).map ToolCall.id).Nodup
  ∧ ((parseToolCalls c7Input.data idSupply).map (fun tc => tc.fn.name) =
      (validJsonMatches c7Input.data).map JMatch.name ++
        (validTagPayloads c7Input.data).map Prod.fst)
  ∧ ((jsonCallMatches c7Input.data).map JMatch.start).Pairwise (· < ·)
  ∧ ((tagCallMatches c7Input.data).map TMatch.start).Pairwise (· < ·) :=
  c7_both_forms_fresh_ids c7Input.data idSupply idSupply_injective
